import Mathlib

/-!
# Delivery Plan Optimizer: shallow embedding and verification

This file embeds the delivery-plan optimizer of the web application's backend
(`internal/service` robot service, `internal/repository` order repository) and
proves or refutes the specification's claims about it.

Conventions of the embedding:
* Go `int`/`int64` values (weights, values, ids, versions) are modelled as `Int`;
  none of the verified claims involves wrap-around behaviour.
* A Go slice is modelled as a `List`; where the nil slice / empty slice
  distinction is observable (the `Orders` field of a plan), the field is an
  `Option (List Order)`, `none` standing for a nil slice.
* A Go `map[int64]bool` is modelled as a function `Int → Bool`.
* `context.Context` cancellation is modelled by a predicate `cancel : Nat → Bool`
  telling whether the context is observed as done at the given poll point.
* Bounded loops whose counters the source caps (`maxIterations`) are modelled by
  structural recursion on the same bound.
-/

namespace DeliveryOpt

/-- Go struct `model.Order`, restricted to the fields the optimizer reads. -/
structure Order where
  orderID : Int
  productID : Int
  weight : Int
  value : Int
deriving DecidableEq, Repr

/-- A default `Order` used for (always in-bounds) list indexing. -/
def defaultOrder : Order := ⟨0, 0, 0, 0⟩

/-- Go struct `model.DeliveryPlan`. Here `orders = none` models a nil `Orders` slice,
`orders = some l` a non-nil slice with contents `l`. -/
structure DeliveryPlan where
  robotID : String
  totalWeight : Int
  totalValue : Int
  orders : Option (List Order)
deriving DecidableEq, Repr

/-- Contents of a possibly-nil Go slice (nil and empty read the same). -/
def goList (o : Option (List Order)) : List Order :=
  o.getD []

/-- Source function `calculateTotalWeight`: sum of the weights of a list of orders. -/
def calculateTotalWeight (orders : List Order) : Int :=
  (orders.map Order.weight).sum

/-- Source function `calculateTotalValue`: sum of the values of a list of orders. -/
def calculateTotalValue (orders : List Order) : Int :=
  (orders.map Order.value).sum

/-! ## The exact DP solver (`dpSolution` and the inlined variants)

The Go code keeps two arrays of length `W+1`:
`dpBuf[cw]` = best value achievable with total weight ≤ `cw`, and
`choicesBuf[cw]` = the chain of `knapChoice` nodes (`orderIndex`, `prev`)
describing the selection realising `dpBuf[cw]`.  We model the arrays as
functions on `Nat` (only indices `≤ W` are ever read) and a `knapChoice`
pointer chain as the list of its `orderIndex` fields, head = most recent. -/

/-- One item's pass of the in-place 0/1-knapsack update on the value array:
the Go inner loop `for cw := W; cw >= w; cw--` reads `dpBuf[cw-w]`, which the
downward direction keeps untouched during the pass, so the pass is the
pointwise update below. -/
def stepVal (W : Nat) (dp : Nat → Int) (w : Nat) (v : Int) : Nat → Int :=
  fun cw => if w ≤ cw ∧ cw ≤ W ∧ dp cw < dp (cw - w) + v then dp (cw - w) + v else dp cw

/-- The same pass on the choice-chain array: where the value improves, the new
chain is the item's index consed onto the chain previously at `cw - w`. -/
def stepCh (W : Nat) (dp : Nat → Int) (ch : Nat → List Nat) (i w : Nat) (v : Int) :
    Nat → List Nat :=
  fun cw => if w ≤ cw ∧ cw ≤ W ∧ dp cw < dp (cw - w) + v then i :: ch (cw - w) else ch cw

/-- The skip test of the DP loops: `if w <= 0 || v < 0 || w > W { continue }`. -/
def dpSkip (W : Nat) (o : Order) : Prop :=
  o.weight ≤ 0 ∨ o.value < 0 ∨ (W : Int) < o.weight

instance (W : Nat) (o : Order) : Decidable (dpSkip W o) := by
  unfold dpSkip; infer_instance

/-- The main DP loop over the orders, `i` being the index of the first order of
`rest` within the full input list. -/
def knapGo (W : Nat) : List Order → Nat → (Nat → Int) → (Nat → List Nat) →
    (Nat → Int) × (Nat → List Nat)
  | [], _, dp, ch => (dp, ch)
  | o :: rest, i, dp, ch =>
    if dpSkip W o then
      knapGo W rest (i + 1) dp ch
    else
      knapGo W rest (i + 1) (stepVal W dp o.weight.toNat o.value)
        (stepCh W dp ch i o.weight.toNat o.value)

/-- The final scan `for w := 0; w <= W; w++ { if dpBuf[w] > bestV { ... } }`,
returning `(bestW, bestV)`. -/
def bestScan (dp : Nat → Int) (W : Nat) : Nat × Int :=
  (List.range (W + 1)).foldl (fun acc w => if dp w > acc.2 then (w, dp w) else acc) (0, 0)

/-- The DP state after the full loop, from the zeroed buffers delivered by the
buffer pool. -/
def knapFinal (W : Nat) (orders : List Order) : (Nat → Int) × (Nat → List Nat) :=
  knapGo W orders 0 (fun _ => 0) (fun _ => [])

/-- Source function `dpSolution`: run the DP, scan for the best weight, and reconstruct the
selection by walking the choice chain (`picked` is nil when the chain is empty,
hence the `Option`). -/
def dpSolution (orders : List Order) (robotID : String) (W : Nat) : DeliveryPlan :=
  let st := knapFinal W orders
  let best := bestScan st.1 W
  let picked := (st.2 best.1).map (fun i => orders.getD i defaultOrder)
  { robotID := robotID
    totalWeight := calculateTotalWeight picked
    totalValue := calculateTotalValue picked
    orders := if picked = [] then none else some picked }

/-- The comparator of the `sort.Slice` call in the first
`bestSelectOrdersForDelivery`: ascending `OrderID`, ties by `ProductID`. -/
def orderLess (a b : Order) : Bool :=
  if a.orderID = b.orderID then a.productID < b.productID else a.orderID < b.orderID

/-- The sort preceding `dpSolution` (modelled with `insertionSort`; the claims
proved here do not depend on how the unstable `sort.Slice` breaks ties). -/
def sortOrders (l : List Order) : List Order :=
  l.insertionSort fun a b => orderLess a b = true

/-- First variant of `bestSelectOrdersForDelivery` (the one paired with
`dpSolution`): guard, filter, sort, solve.  Its empty-case plans carry an
explicit empty (non-nil) `Orders` slice. -/
def bestSelectOrdersForDelivery1 (orders : List Order) (robotID : String)
    (robotCapacity : Int) : DeliveryPlan :=
  if orders.length = 0 ∨ robotCapacity ≤ 0 then ⟨robotID, 0, 0, some []⟩
  else
    let filtered := orders.filter fun o =>
      !(decide (o.weight ≤ 0) || decide (o.value < 0) || decide (robotCapacity < o.weight))
    if filtered.length = 0 then ⟨robotID, 0, 0, some []⟩
    else dpSolution (sortOrders filtered) robotID robotCapacity.toNat

/-! ## The `choose`/`prevW` variant of the exact solver -/

/-- Update of the `choose` array: where the value improves, record the item
index (stored as `Int`; `-1` means never set). -/
def stepChoose (W : Nat) (dp : Nat → Int) (choose : Nat → Int) (i w : Nat) (v : Int) :
    Nat → Int :=
  fun cw => if w ≤ cw ∧ cw ≤ W ∧ dp cw < dp (cw - w) + v then (i : Int) else choose cw

/-- Update of the `prevW` array: where the value improves, record `cw - w`. -/
def stepPrevW (W : Nat) (dp : Nat → Int) (prevW : Nat → Int) (w : Nat) (v : Int) :
    Nat → Int :=
  fun cw => if w ≤ cw ∧ cw ≤ W ∧ dp cw < dp (cw - w) + v then ((cw - w : Nat) : Int) else prevW cw

/-- DP loop of the `choose`/`prevW` variant. -/
def knapGo2 (W : Nat) : List Order → Nat → (Nat → Int) → (Nat → Int) → (Nat → Int) →
    (Nat → Int) × (Nat → Int) × (Nat → Int)
  | [], _, dp, choose, prevW => (dp, choose, prevW)
  | o :: rest, i, dp, choose, prevW =>
    if dpSkip W o then
      knapGo2 W rest (i + 1) dp choose prevW
    else
      knapGo2 W rest (i + 1) (stepVal W dp o.weight.toNat o.value)
        (stepChoose W dp choose i o.weight.toNat o.value)
        (stepPrevW W dp prevW o.weight.toNat o.value)

/-- The DP state of the `choose`/`prevW` variant after the full loop (its
arrays start zeroed, `choose`/`prevW` filled with `-1`). -/
def knap2Final (W : Nat) (orders : List Order) : (Nat → Int) × (Nat → Int) × (Nat → Int) :=
  knapGo2 W orders 0 (fun _ => 0) (fun _ => -1) (fun _ => -1)

/-- The reconstruction walk
`for cur := bestW; cur > 0 && choose[cur] != -1 { pick orders[choose[cur]]; cur = prevW[cur] }`.
The walk is given `W + 1` steps of fuel: every `prevW` entry the DP writes at
index `cw` is `cw - w` with `w ≥ 1`, so `cur` strictly decreases and a run
never needs more than `bestW + 1 ≤ W + 1` steps. -/
def chooseWalk (orders : List Order) (choose prevW : Nat → Int) :
    Nat → Nat → List Order
  | 0, _ => []
  | fuel + 1, cur =>
    if 0 < cur ∧ choose cur ≠ -1 then
      orders.getD (choose cur).toNat defaultOrder ::
        chooseWalk orders choose prevW fuel (prevW cur).toNat
    else []

/-- The `choose`/`prevW` variant of `bestSelectOrdersForDelivery`: it reports
`bestW`/`bestV` as the plan totals and rebuilds `Orders` by the array walk. -/
def bestSelectOrdersForDelivery2 (orders : List Order) (robotID : String)
    (robotCapacity : Int) : DeliveryPlan :=
  if orders.length = 0 ∨ robotCapacity ≤ 0 then ⟨robotID, 0, 0, none⟩
  else
    let W := robotCapacity.toNat
    let st := knap2Final W orders
    let best := bestScan st.1 W
    let picked := chooseWalk orders st.2.1 st.2.2 (W + 1) best.1
    ⟨robotID, (best.1 : Int), best.2, if picked = [] then none else some picked⟩

/-- The inlined pointer-chain variant of `bestSelectOrdersForDelivery` used by
the plan-cache variant of `GenerateDeliveryPlan`: guard, then the same
algorithm as `dpSolution` (no pre-filter, no sort). -/
def bestSelectOrdersForDelivery3 (orders : List Order) (robotID : String)
    (robotCapacity : Int) : DeliveryPlan :=
  if orders.length = 0 ∨ robotCapacity ≤ 0 then ⟨robotID, 0, 0, none⟩
  else dpSolution orders robotID robotCapacity.toNat

/-! ## The greedy / local-search heuristic suite -/

/-- Loop body of `greedyByValueDensity`: add the order when it still fits,
accumulating `(selected, currentWeight, totalValue)`. -/
def greedyStep (capacity : Int) (acc : List Order × Int × Int) (o : Order) :
    List Order × Int × Int :=
  if acc.2.1 + o.weight ≤ capacity then (acc.1 ++ [o], acc.2.1 + o.weight, acc.2.2 + o.value)
  else acc

/-- Source function `greedyByValueDensity`: walk the list in its given order, adding every
order that still fits.
(The function does not sort; its callers are expected to pass a sorted list.) -/
def greedyByValueDensity (orders : List Order) (capacity : Int) : List Order × Int :=
  let r := orders.foldl (greedyStep capacity) ([], 0, 0)
  (r.1, r.2.2)

/-- Exact comparison `v1 / w1 > v2 / w2` of two ratios with non-zero
denominators, by cross-multiplication.  This models the source's `float64`
ratio comparison (none of the verified claims depends on `float64`
rounding of the ratio). -/
def ratGT (v1 w1 v2 w2 : Int) : Bool :=
  if 0 < w1 * w2 then decide (v2 * w1 < v1 * w2) else decide (v1 * w2 < v2 * w1)

/-- Exact comparison `v1 / w1 ≥ v2 / w2`, as `ratGT`. -/
def ratGE (v1 w1 v2 w2 : Int) : Bool :=
  if 0 < w1 * w2 then decide (v2 * w1 ≤ v1 * w2) else decide (v1 * w2 ≤ v2 * w1)

/-- The comparator of `selectHighValueItems`: descending value, ties by
value density with weight-0 items first. -/
def highValueLess (a b : Order) : Bool :=
  if a.value = b.value then
    if a.weight = 0 ∧ b.weight = 0 then false
    else if a.weight = 0 then true
    else if b.weight = 0 then false
    else ratGT a.value a.weight b.value b.weight
  else decide (a.value > b.value)

/-- Source function `selectHighValueItems`: sort by `highValueLess`, then greedy-add. -/
def selectHighValueItems (orders : List Order) (capacity : Int) : List Order × Int :=
  greedyByValueDensity (orders.insertionSort fun a b => highValueLess a b = true) capacity

/-- Source function `efficientStrategy`: keep a prefix of the input (the "top 50%", at least 10
when the list has at least 10), sort it by descending value, then greedy-add. -/
def efficientStrategy (orders : List Order) (capacity : Int) : List Order × Int :=
  if orders.length = 0 then ([], 0)
  else
    let tc0 := orders.length / 2
    let tc1 := if tc0 < 10 ∧ 10 ≤ orders.length then 10 else tc0
    let topCount := if orders.length < tc1 then orders.length else tc1
    let topOrders := orders.take topCount
    greedyByValueDensity (topOrders.insertionSort fun a b => b.value < a.value) capacity

/-- The inner candidate scan of `lightLocalSearch` for a fixed selected order
`sel`: the first unselected candidate whose exchange for `sel` keeps the weight
within capacity and strictly raises the value. -/
def findLightSwapInner (selMap : Int → Bool) (sel : Order) (curWeight bestValue capacity : Int) :
    List Order → Option Order
  | [] => none
  | c :: rest =>
    if selMap c.orderID then findLightSwapInner selMap sel curWeight bestValue capacity rest
    else if capacity < curWeight - sel.weight + c.weight then
      findLightSwapInner selMap sel curWeight bestValue capacity rest
    else if bestValue < bestValue - sel.value + c.value then some c
    else findLightSwapInner selMap sel curWeight bestValue capacity rest

/-- The outer scan of `lightLocalSearch`: the first position `i` of the current
selection for which some candidate improves, together with the selected order
at `i` and the candidate. -/
def findLightSwap (allOrders : List Order) (selMap : Int → Bool)
    (curWeight bestValue capacity : Int) : List Order → Nat → Option (Nat × Order × Order)
  | [], _ => none
  | sel :: rest, i =>
    match findLightSwapInner selMap sel curWeight bestValue capacity allOrders with
    | some c => some (i, sel, c)
    | none => findLightSwap allOrders selMap curWeight bestValue capacity rest (i + 1)

/-- The iteration loop of `lightLocalSearch`.  `fuel` is `maxIterations`
minus the number of iterations already run; `iterations` is the Go counter
(incremented at the top of the body, polled every 10 iterations). -/
def lightLoop (cancel : Nat → Bool) (allOrders : List Order) (capacity : Int) :
    Nat → Nat → List Order → Int → Int → (Int → Bool) → List Order × Int
  | 0, _, best, bv, _, _ => (best, bv)
  | fuel + 1, iterations, best, bv, cw, selMap =>
    let it := iterations + 1
    if it % 10 = 0 ∧ cancel it then (best, bv)
    else
      match findLightSwap allOrders selMap cw bv capacity best 0 with
      | none => (best, bv)
      | some (i, sel, c) =>
        lightLoop cancel allOrders capacity fuel it (best.set i c)
          (bv - sel.value + c.value) (cw - sel.weight + c.weight)
          (fun id => if id = c.orderID then true else if id = sel.orderID then false else selMap id)

/-- Source function `lightLocalSearch`: exchange-only local search, at most 100 iterations,
polling cancellation every 10 iterations and returning the current best on
cancellation. -/
def lightLocalSearch (cancel : Nat → Bool) (currentOrders allOrders : List Order)
    (capacity : Int) : List Order × Int :=
  if currentOrders.length = 0 then (currentOrders, 0)
  else
    lightLoop cancel allOrders capacity 100 0 currentOrders
      (calculateTotalValue currentOrders) (calculateTotalWeight currentOrders)
      (fun id => (currentOrders.map Order.orderID).contains id)

/-- Source function `conservativeGreedySolution`: best of three greedy candidates, refined by
`lightLocalSearch`; the plan totals are the refined value and the recomputed
weight. -/
def conservativeGreedySolution (cancel : Nat → Bool) (orders : List Order)
    (robotID : String) (robotCapacity : Int) : DeliveryPlan :=
  let base := greedyByValueDensity orders robotCapacity
  let hv := selectHighValueItems orders robotCapacity
  let eff := efficientStrategy orders robotCapacity
  let best1 := if base.2 < hv.2 then hv else base
  let best2 := if best1.2 < eff.2 then eff else best1
  let impr := lightLocalSearch cancel best2.1 orders robotCapacity
  { robotID := robotID
    totalWeight := calculateTotalWeight impr.1
    totalValue := impr.2
    orders := if impr.1 = [] then none else some impr.1 }

/-! ### `mediumLocalSearch` -/

/-- One 2-opt test of `mediumLocalSearch`: positions `i` and `j` of the current
selection swapped. -/
def swapPositions (l : List Order) (i j : Nat) : List Order :=
  (l.set i (l.getD j defaultOrder)).set j (l.getD i defaultOrder)

/-- The inner `j` loop of the 2-opt phase at a fixed `i`. -/
def findMedium2optInner (best : List Order) (bv : Int) (i : Nat) :
    Nat → Option (List Order × Int)
  | j =>
    if _h : j < best.length then
      let t := swapPositions best i j
      if bv < calculateTotalValue t then some (t, calculateTotalValue t)
      else findMedium2optInner best bv i (j + 1)
    else none
termination_by j => best.length - j

/-- The 2-opt phase of `mediumLocalSearch`: the first pair `i < j` whose
position swap strictly raises the total value (none ever does, since a
position swap permutes the selection; the scan is embedded faithfully and that
fact is proved, not assumed). -/
def findMedium2opt (best : List Order) (bv : Int) : Nat → Option (List Order × Int)
  | i =>
    if _h : i < best.length then
      match findMedium2optInner best bv i (i + 1) with
      | some r => some r
      | none => findMedium2opt best bv (i + 1)
    else none
termination_by i => best.length - i

/-- The inner candidate scan of the exchange phase of `mediumLocalSearch`. -/
def findMediumExchInner (best : List Order) (selMap : Int → Bool) (bv capacity : Int)
    (i : Nat) (sel : Order) : List Order → Option (Nat × Order × Order × List Order × Int)
  | [] => none
  | c :: rest =>
    if selMap c.orderID then findMediumExchInner best selMap bv capacity i sel rest
    else if calculateTotalWeight best - sel.weight + c.weight ≤ capacity then
      let t := best.set i c
      if bv < calculateTotalValue t then some (i, sel, c, t, calculateTotalValue t)
      else findMediumExchInner best selMap bv capacity i sel rest
    else findMediumExchInner best selMap bv capacity i sel rest

/-- The exchange phase of `mediumLocalSearch`: first improving `(i, candidate)`
pair in scan order over the positions of the current selection. -/
def findMediumExch (best allOrders : List Order) (selMap : Int → Bool) (bv capacity : Int) :
    Nat → Option (Nat × Order × Order × List Order × Int)
  | i =>
    if _h : i < best.length then
      match findMediumExchInner best selMap bv capacity i (best.getD i defaultOrder) allOrders with
      | some r => some r
      | none => findMediumExch best allOrders selMap bv capacity (i + 1)
    else none
termination_by i => best.length - i

/-- The iteration loop of `mediumLocalSearch` (at most 500 iterations, polled
every 20): 2-opt phase, then — only if 2-opt found nothing — the exchange
phase; stop when neither phase improves. -/
def mediumLoop (cancel : Nat → Bool) (allOrders : List Order) (capacity : Int) :
    Nat → Nat → List Order → Int → (Int → Bool) → List Order × Int
  | 0, _, best, bv, _ => (best, bv)
  | fuel + 1, iterations, best, bv, selMap =>
    let it := iterations + 1
    if it % 20 = 0 ∧ cancel it then (best, bv)
    else
      match findMedium2opt best bv 0 with
      | some (b, v) => mediumLoop cancel allOrders capacity fuel it b v selMap
      | none =>
        match findMediumExch best allOrders selMap bv capacity 0 with
        | some (_, sel, c, b, v) =>
          mediumLoop cancel allOrders capacity fuel it b v
            (fun id => if id = c.orderID then true else if id = sel.orderID then false else selMap id)
        | none => (best, bv)

/-- Source function `mediumLocalSearch`: 2-opt plus exchange local search, at most 500
iterations, polling cancellation every 20 iterations. -/
def mediumLocalSearch (cancel : Nat → Bool) (currentOrders allOrders : List Order)
    (capacity : Int) : List Order × Int :=
  if currentOrders.length = 0 then (currentOrders, 0)
  else
    mediumLoop cancel allOrders capacity 500 0 currentOrders
      (calculateTotalValue currentOrders)
      (fun id => (currentOrders.map Order.orderID).contains id)

/-! ## Fallback selection and the `GenerateDeliveryPlan` pipeline -/

/-- Loop body of `selectFallbackOrder`: skip orders that do not individually
fit, otherwise keep the better of the running best and the order (higher
value, ties by lower weight). -/
def fbStep (capacity : Int) (best : Option Order) (o : Order) : Option Order :=
  if o.weight ≤ 0 ∨ capacity < o.weight then best
  else
    match best with
    | none => some o
    | some b =>
      if b.value < o.value ∨ (o.value = b.value ∧ o.weight < b.weight) then some o else best

/-- Source function `selectFallbackOrder`: the best single order that individually fits
(positive weight, weight ≤ capacity), preferring higher value, then lower
weight. -/
def selectFallbackOrder (orders : List Order) (capacity : Int) : Option Order :=
  orders.foldl (fbStep capacity) none

/-- The pure per-request core of the first variant of `GenerateDeliveryPlan`,
for a fixed fetched pool: solve, then the single-item fallback when the plan
is empty, then the nil-slice normalisation `if plan.Orders == nil`.  The
repository reads and the replenishment write (which only matter when the
database adds new orders) are modelled as leaving the pool unchanged, so the
solver retry after replenishment returns the same plan and is elided. -/
def generateDeliveryPlanCore (orders : List Order) (robotID : String)
    (capacity : Int) : DeliveryPlan :=
  let plan := bestSelectOrdersForDelivery1 orders robotID capacity
  let plan :=
    if (goList plan.orders).length = 0 then
      match selectFallbackOrder orders capacity with
      | some fb => ⟨robotID, fb.weight, fb.value, some [fb]⟩
      | none => plan
    else plan
  if plan.orders = none then { plan with orders := some [] } else plan

/-! ## Branch and bound (`branchAndBoundSolution`)

The closure state (`bestValue`, `bestOrders`, `steps`) is threaded explicitly;
`ctx.Done()` observed at a poll after `s` total steps is modelled by
`cancel s`. -/

/-- Mutable search state of `branchAndBoundSolution`. -/
structure BnbState where
  bestValue : Int
  bestOrders : List Order
  steps : Nat

/-- The greedy fill loop of `calculateBound`; the fractional last item uses
Go's truncated integer division (`Int.div`). -/
def boundLoop (remaining bound : Int) : List Order → Int
  | [] => bound
  | o :: rest =>
    if o.weight ≤ remaining then boundLoop (remaining - o.weight) (bound + o.value) rest
    else if 0 < o.weight then bound + Int.tdiv (o.value * remaining) o.weight
    else bound

/-- Source function `calculateBound`: fractional-relaxation upper bound over the remaining
items (`rest`), given the node's accumulated weight and value. -/
def calculateBound (robotCapacity weight value : Int) (rest : List Order) : Int :=
  if robotCapacity ≤ weight then 0 else boundLoop (robotCapacity - weight) value rest

/-- The recursive `solve` of `branchAndBoundSolution` on the items remaining
from the node's level; `included` is the node's absolute inclusion vector.
Returns `none` when a cancellation poll aborts the search. -/
def bnbSolve (cancel : Nat → Bool) (orders : List Order) (robotCapacity : Int) :
    List Order → Int → Int → List Bool → BnbState → Option BnbState
  | rest, weight, value, included, st =>
    let st := { st with steps := st.steps + 1 }
    if st.steps % 10000 = 0 ∧ cancel st.steps then none
    else
      match rest with
      | [] =>
        if st.bestValue < value then
          some { st with
                 bestValue := value,
                 bestOrders := ((orders.zip included).filter (fun p => p.2)).map Prod.fst }
        else some st
      | o :: rest' =>
        let level := orders.length - (o :: rest').length
        let exclBound := calculateBound robotCapacity weight value rest'
        let st1 :=
          if st.bestValue < exclBound then
            bnbSolve cancel orders robotCapacity rest' weight value included st
          else some st
        match st1 with
        | none => none
        | some st1 =>
          if weight + o.weight ≤ robotCapacity then
            let included' := included.set level true
            let inclBound := calculateBound robotCapacity (weight + o.weight) (value + o.value) rest'
            if st1.bestValue < inclBound then
              bnbSolve cancel orders robotCapacity rest' (weight + o.weight) (value + o.value)
                included' st1
            else some st1
          else some st1

/-- Source function `branchAndBoundSolution`: run `solve` from the root; on a cancellation
error return the zero `DeliveryPlan{}` together with the error (modelled as the
Boolean second component). -/
def branchAndBoundSolution (cancel : Nat → Bool) (orders : List Order)
    (robotID : String) (robotCapacity : Int) : DeliveryPlan × Bool :=
  match bnbSolve cancel orders robotCapacity orders 0 0 (orders.map (fun _ => false))
      ⟨0, [], 0⟩ with
  | none => (⟨"", 0, 0, none⟩, true)
  | some st =>
    (⟨robotID, calculateTotalWeight st.bestOrders, st.bestValue,
      if st.bestOrders = [] then none else some st.bestOrders⟩, false)

/-! ## The plan-cache variant of `GenerateDeliveryPlan`

The order repository's `shippingOrdersVersion` (incremented by
`onUpdateOrders` on every order mutation) and the `hashicorp/golang-lru`
cache are modelled as explicit state; the LRU cache is an association list in
most-recently-used-first order with the library's strict-LRU `Get`/`Add`
semantics. -/

/-- Constant `planCacheSize`. -/
def planCacheSize : Nat := 1024

/-- A plan-cache key: `(ordersVersion, capacity)`. -/
abbrev PlanCacheKey := Int × Int

/-- The state visible to the plan-cache variant: the pool version, the
shipping pool, and the plan cache. -/
structure RobotSysState where
  shippingOrdersVersion : Int
  shippingOrders : List Order
  planCache : List (PlanCacheKey × DeliveryPlan)

/-- LRU `Get`: on a hit, also move the entry to the front (most recently
used). -/
def lruGet (cache : List (PlanCacheKey × DeliveryPlan)) (k : PlanCacheKey) :
    Option (DeliveryPlan × List (PlanCacheKey × DeliveryPlan)) :=
  match cache.find? (fun e => decide (e.1 = k)) with
  | none => none
  | some e => some (e.2, e :: cache.filter (fun e2 => !decide (e2.1 = k)))

/-- LRU `Add`: insert (or refresh) at the front, evicting beyond the fixed
capacity. -/
def lruAdd (cache : List (PlanCacheKey × DeliveryPlan)) (k : PlanCacheKey)
    (p : DeliveryPlan) : List (PlanCacheKey × DeliveryPlan) :=
  ((k, p) :: cache.filter (fun e => !decide (e.1 = k))).take planCacheSize

/-- One `GenerateDeliveryPlan` call of the plan-cache variant: read the pool
version, look up `(version, capacity)`; on a hit return the cached plan
retargeted to the requesting robot; on a miss solve, mark the selected orders
delivering (`UpdateStatuses` → `onUpdateOrders`: they leave the shipping pool
and the version is bumped), then insert the plan keyed by the version observed
before the computation. -/
def generateDeliveryPlanCached (st : RobotSysState) (robotID : String)
    (capacity : Int) : DeliveryPlan × RobotSysState :=
  let key : PlanCacheKey := (st.shippingOrdersVersion, capacity)
  match lruGet st.planCache key with
  | some (v, cache2) => ({ v with robotID := robotID }, { st with planCache := cache2 })
  | none =>
    let plan := bestSelectOrdersForDelivery3 st.shippingOrders robotID capacity
    let pickedIDs := (goList plan.orders).map Order.orderID
    let st2 :=
      if 0 < (goList plan.orders).length then
        { st with
          shippingOrdersVersion := st.shippingOrdersVersion + 1
          shippingOrders := st.shippingOrders.filter (fun o => !(pickedIDs.contains o.orderID)) }
      else st
    (plan, { st2 with planCache := lruAdd st2.planCache key plan })

/-- An external `UpdateOrderStatus` between planning calls: `UpdateStatuses`
runs `onUpdateOrders`, which bumps the version (the resulting shipping pool is
arbitrary); the plan cache itself is untouched. -/
def updateOrderStatusStep (st : RobotSysState) (newPool : List Order) : RobotSysState :=
  { st with shippingOrdersVersion := st.shippingOrdersVersion + 1, shippingOrders := newPool }

/-- Well-formedness of the cache: every entry was keyed by a version observed
no later than the current one.  (Every insertion keys by the pre-computation
version, and the version never decreases.) -/
def cacheWF (st : RobotSysState) : Prop :=
  ∀ e ∈ st.planCache, e.1.1 ≤ st.shippingOrdersVersion

/-! ## Specification-side definitions

These follow the spec's words, for comparison with the embedded code. -/

/-- All subsets (sublists) of the input whose total weight fits the capacity. -/
def feasibleSubsets (orders : List Order) (c : Int) : List (List Order) :=
  orders.sublists.filter (fun s => decide (calculateTotalWeight s ≤ c))

/-- The maximum, over all subsets of the input with total weight ≤ `c`, of the
subset's total value (0 when only the empty subset fits). -/
def subsetMaxValue (orders : List Order) (c : Int) : Int :=
  ((feasibleSubsets orders c).map calculateTotalValue).foldl max 0

/-- The smallest total weight among the feasible subsets that attain
`subsetMaxValue` (the capacity when none does). -/
def minTieWeight (orders : List Order) (c : Int) : Int :=
  (((feasibleSubsets orders c).filter
      (fun s => decide (calculateTotalValue s = subsetMaxValue orders c))).map
    calculateTotalWeight).foldl min c

/-- The greedy-by-value-density baseline as the spec states it: sort
descending by value/weight (weight-0 items have infinite density, hence come
first), then add while capacity remains. -/
def densityGE (a b : Order) : Bool :=
  if a.weight = 0 then true
  else if b.weight = 0 then false
  else ratGE a.value a.weight b.value b.weight

/-- The spec's greedy-by-value-density baseline. -/
def greedyDensityBaseline (orders : List Order) (capacity : Int) : List Order × Int :=
  greedyByValueDensity (orders.insertionSort fun a b => densityGE a b = true) capacity

/-! ## Invariants of the DP loop (proof-side definitions) -/

/-- An order the DP considers: positive weight, non-negative value, fits the
capacity.  This is the negation of `dpSkip`. -/
def admissible (W : Nat) (o : Order) : Prop :=
  0 < o.weight ∧ 0 ≤ o.value ∧ o.weight ≤ (W : Int)

/-- The orders selected by a choice chain, resolved against the order list. -/
def chainSel (pre : List Order) (ix : List Nat) : List Order :=
  ix.map (fun j => pre.getD j defaultOrder)

/-- Soundness invariant of the DP state with respect to the processed prefix
`pre`: every chain is a strictly decreasing list of indices of admissible
orders whose total weight fits the slot and whose total value is the slot's
DP value. -/
def chainInv (pre : List Order) (W : Nat) (dp : Nat → Int) (ch : Nat → List Nat) : Prop :=
  ∀ cw, cw ≤ W →
    (ch cw).Pairwise (fun a b => b < a) ∧
    (∀ j ∈ ch cw, j < pre.length ∧ admissible W (pre.getD j defaultOrder)) ∧
    calculateTotalWeight (chainSel pre (ch cw)) ≤ (cw : Int) ∧
    calculateTotalValue (chainSel pre (ch cw)) = dp cw

/-- Monotonicity of the DP value array on `0..W`. -/
def dpMono (W : Nat) (dp : Nat → Int) : Prop :=
  ∀ x y, x ≤ y → y ≤ W → dp x ≤ dp y

/-- The strict preference order of `selectFallbackOrder`: `o` beats the
running best `b` when it has higher value, or equal value and lower weight. -/
def fbBetter (o b : Order) : Prop :=
  b.value < o.value ∨ (o.value = b.value ∧ o.weight < b.weight)

/-- Completeness invariant: every admissible sub-selection of the processed
prefix that fits a slot is dominated by the slot's DP value. -/
def dpComplete (pre : List Order) (W : Nat) (dp : Nat → Int) : Prop :=
  ∀ cw, cw ≤ W → ∀ s, s.Sublist pre → (∀ o ∈ s, admissible W o) →
    calculateTotalWeight s ≤ (cw : Int) → calculateTotalValue s ≤ dp cw

/-! ## Lemmas: folded maxima and minima -/

lemma le_foldl_max (l : List Int) (b : Int) : b ≤ l.foldl max b := by
  induction l generalizing b with
  | nil => exact le_refl b
  | cons a t ih => exact le_trans (le_max_left b a) (ih (max b a))

lemma le_foldl_max_of_mem {a : Int} {l : List Int} (h : a ∈ l) (b : Int) :
    a ≤ l.foldl max b := by
  induction l generalizing b with
  | nil => cases h
  | cons x t ih =>
    rcases List.mem_cons.mp h with rfl | ht
    · exact le_trans (le_max_right b a) (le_foldl_max t (max b a))
    · exact ih ht (max b x)

lemma foldl_max_le {l : List Int} {b m : Int} (hb : b ≤ m) (h : ∀ a ∈ l, a ≤ m) :
    l.foldl max b ≤ m := by
  induction l generalizing b with
  | nil => exact hb
  | cons x t ih =>
    exact ih (max_le hb (h x (List.mem_cons_self x t))) fun a ha => h a (List.mem_cons_of_mem x ha)

lemma foldl_max_mem_or (l : List Int) (b : Int) : l.foldl max b = b ∨ l.foldl max b ∈ l := by
  induction l generalizing b with
  | nil => exact Or.inl rfl
  | cons x t ih =>
    rcases ih (max b x) with h | h
    · rcases le_total b x with hbx | hxb
      · exact Or.inr (by rw [List.foldl_cons, h, max_eq_right hbx]; exact List.mem_cons_self x t)
      · exact Or.inl (by rw [List.foldl_cons, h, max_eq_left hxb])
    · exact Or.inr (List.mem_cons_of_mem x h)

lemma foldl_min_le (l : List Int) (b : Int) : l.foldl min b ≤ b := by
  induction l generalizing b with
  | nil => exact le_refl b
  | cons a t ih => exact le_trans (ih (min b a)) (min_le_left b a)

lemma foldl_min_le_of_mem {a : Int} {l : List Int} (h : a ∈ l) (b : Int) :
    l.foldl min b ≤ a := by
  induction l generalizing b with
  | nil => cases h
  | cons x t ih =>
    rcases List.mem_cons.mp h with rfl | ht
    · exact le_trans (foldl_min_le t (min b a)) (min_le_right b a)
    · exact ih ht (min b x)

lemma le_foldl_min {l : List Int} {b m : Int} (hb : m ≤ b) (h : ∀ a ∈ l, m ≤ a) :
    m ≤ l.foldl min b := by
  induction l generalizing b with
  | nil => exact hb
  | cons x t ih =>
    exact ih (le_min hb (h x (List.mem_cons_self x t))) fun a ha => h a (List.mem_cons_of_mem x ha)

/-! ## Lemmas: sums of weights and values -/

lemma calculateTotalWeight_nil : calculateTotalWeight [] = 0 := rfl

lemma calculateTotalValue_nil : calculateTotalValue [] = 0 := rfl

lemma calculateTotalWeight_cons (o : Order) (l : List Order) :
    calculateTotalWeight (o :: l) = o.weight + calculateTotalWeight l := by
  simp [calculateTotalWeight]

lemma calculateTotalValue_cons (o : Order) (l : List Order) :
    calculateTotalValue (o :: l) = o.value + calculateTotalValue l := by
  simp [calculateTotalValue]

lemma calculateTotalWeight_append (l₁ l₂ : List Order) :
    calculateTotalWeight (l₁ ++ l₂) = calculateTotalWeight l₁ + calculateTotalWeight l₂ := by
  simp [calculateTotalWeight]

lemma calculateTotalValue_append (l₁ l₂ : List Order) :
    calculateTotalValue (l₁ ++ l₂) = calculateTotalValue l₁ + calculateTotalValue l₂ := by
  simp [calculateTotalValue]

lemma calculateTotalWeight_reverse (l : List Order) :
    calculateTotalWeight l.reverse = calculateTotalWeight l := by
  simp [calculateTotalWeight, List.sum_reverse]

lemma calculateTotalValue_reverse (l : List Order) :
    calculateTotalValue l.reverse = calculateTotalValue l := by
  simp [calculateTotalValue, List.sum_reverse]

lemma calculateTotalWeight_nonneg {l : List Order} (h : ∀ o ∈ l, 0 < o.weight) :
    0 ≤ calculateTotalWeight l := by
  induction l with
  | nil => exact le_refl 0
  | cons o t ih =>
    rw [calculateTotalWeight_cons]
    have h1 := h o (List.mem_cons_self o t)
    have h2 := ih fun x hx => h x (List.mem_cons_of_mem o hx)
    omega

lemma calculateTotalWeight_pos {l : List Order} (hne : l ≠ [])
    (h : ∀ o ∈ l, 0 < o.weight) : 0 < calculateTotalWeight l := by
  cases l with
  | nil => exact absurd rfl hne
  | cons o t =>
    rw [calculateTotalWeight_cons]
    have h1 := h o (List.mem_cons_self o t)
    have h2 := @calculateTotalWeight_nonneg t fun x hx => h x (List.mem_cons_of_mem o hx)
    omega

lemma weight_le_calculateTotalWeight {l : List Order} {o : Order} (ho : o ∈ l)
    (h : ∀ x ∈ l, 0 < x.weight) : o.weight ≤ calculateTotalWeight l := by
  induction l with
  | nil => cases ho
  | cons x t ih =>
    rw [calculateTotalWeight_cons]
    rcases List.mem_cons.mp ho with rfl | ht
    · have := @calculateTotalWeight_nonneg t fun y hy => h y (List.mem_cons_of_mem _ hy)
      omega
    · have h1 := h x (List.mem_cons_self x t)
      have h2 := ih ht fun y hy => h y (List.mem_cons_of_mem _ hy)
      omega

/-- Sum of mapped values after a single in-bounds `set`. -/
lemma map_sum_set (f : Order → Int) (l : List Order) (i : Nat) (a : Order)
    (h : i < l.length) :
    ((l.set i a).map f).sum = (l.map f).sum - f (l.getD i defaultOrder) + f a := by
  induction l generalizing i with
  | nil => cases h
  | cons x t ih =>
    cases i with
    | zero => simp [List.set]; ring
    | succ j =>
      have hj : j < t.length := Nat.lt_of_succ_lt_succ h
      simp only [List.set, List.map_cons, List.sum_cons, List.getD_cons_succ, ih j hj]
      ring

lemma calculateTotalValue_set (l : List Order) (i : Nat) (a : Order) (h : i < l.length) :
    calculateTotalValue (l.set i a) =
      calculateTotalValue l - (l.getD i defaultOrder).value + a.value :=
  map_sum_set Order.value l i a h

lemma calculateTotalWeight_set (l : List Order) (i : Nat) (a : Order) (h : i < l.length) :
    calculateTotalWeight (l.set i a) =
      calculateTotalWeight l - (l.getD i defaultOrder).weight + a.weight :=
  map_sum_set Order.weight l i a h

/-! ## Lemmas: the DP invariants -/

lemma not_dpSkip_iff {W : Nat} {o : Order} : ¬dpSkip W o ↔ admissible W o := by
  unfold dpSkip admissible
  omega

lemma stepVal_ge (W : Nat) (dp : Nat → Int) (w : Nat) (v : Int) (cw : Nat) :
    dp cw ≤ stepVal W dp w v cw := by
  unfold stepVal
  split
  · next h => exact le_of_lt h.2.2
  · exact le_refl _

lemma stepVal_ge_shift (W : Nat) (dp : Nat → Int) (w : Nat) (v : Int) {cw : Nat}
    (h1 : w ≤ cw) (h2 : cw ≤ W) : dp (cw - w) + v ≤ stepVal W dp w v cw := by
  unfold stepVal
  split
  · exact le_refl _
  · next h =>
    have : ¬dp cw < dp (cw - w) + v := fun hlt => h ⟨h1, h2, hlt⟩
    omega

lemma stepVal_mono {W : Nat} {dp : Nat → Int} (h : dpMono W dp) (w : Nat) (v : Int) :
    dpMono W (stepVal W dp w v) := by
  intro x y hxy hyW
  unfold stepVal
  by_cases cy : w ≤ y ∧ y ≤ W ∧ dp y < dp (y - w) + v
  · rw [if_pos cy]
    by_cases cx : w ≤ x ∧ x ≤ W ∧ dp x < dp (x - w) + v
    · rw [if_pos cx]
      have hsub : x - w ≤ y - w := Nat.sub_le_sub_right hxy w
      have hW : y - w ≤ W := le_trans (Nat.sub_le y w) hyW
      exact add_le_add_right (h _ _ hsub hW) v
    · rw [if_neg cx]
      exact le_trans (h x y hxy hyW) (le_of_lt cy.2.2)
  · rw [if_neg cy]
    by_cases cx : w ≤ x ∧ x ≤ W ∧ dp x < dp (x - w) + v
    · rw [if_pos cx]
      have hw : w ≤ y := le_trans cx.1 hxy
      have hnlt : ¬dp y < dp (y - w) + v := fun hlt => cy ⟨hw, hyW, hlt⟩
      have hsub : x - w ≤ y - w := Nat.sub_le_sub_right hxy w
      have hW : y - w ≤ W := le_trans (Nat.sub_le y w) hyW
      have := h _ _ hsub hW
      omega
    · rw [if_neg cx]
      exact h x y hxy hyW

lemma chainSel_append_of_bounds {pre : List Order} {ix : List Nat} (l' : List Order)
    (hbd : ∀ j ∈ ix, j < pre.length) :
    chainSel (pre ++ l') ix = chainSel pre ix := by
  unfold chainSel
  exact List.map_congr_left fun j hj => List.getD_append pre l' defaultOrder j (hbd j hj)

lemma getD_concat_length (l : List Order) (a : Order) :
    (l ++ [a]).getD l.length defaultOrder = a := by
  have hlen : l.length < (l ++ [a]).length := by simp
  rw [List.getD_eq_getElem _ _ hlen]
  exact List.getElem_concat_length l a l.length rfl hlen

lemma chainInv_append_one {pre : List Order} {W : Nat} {dp : Nat → Int}
    {ch : Nat → List Nat} (h : chainInv pre W dp ch) (o : Order) :
    chainInv (pre ++ [o]) W dp ch := by
  intro cw hcw
  obtain ⟨p1, p2, p3, p4⟩ := h cw hcw
  have hbd : ∀ j ∈ ch cw, j < pre.length := fun j hj => (p2 j hj).1
  refine ⟨p1, ?_, ?_, ?_⟩
  · intro j hj
    refine ⟨lt_of_lt_of_le (hbd j hj) (by simp), ?_⟩
    rw [List.getD_append pre [o] defaultOrder j (hbd j hj)]
    exact (p2 j hj).2
  · rwa [chainSel_append_of_bounds [o] hbd]
  · rwa [chainSel_append_of_bounds [o] hbd]

lemma dpComplete_skip {pre : List Order} {W : Nat} {dp : Nat → Int}
    (h : dpComplete pre W dp) {o : Order} (hsk : dpSkip W o) :
    dpComplete (pre ++ [o]) W dp := by
  intro cw hcw s hs hadm hw
  rcases List.sublist_append_iff.mp hs with ⟨s₁, s₂, rfl, hs₁, hs₂⟩
  rcases List.sublist_singleton.mp hs₂ with rfl | rfl
  · rw [List.append_nil] at hadm hw ⊢
    exact h cw hcw s₁ hs₁ hadm hw
  · exfalso
    have ho : o ∈ s₁ ++ [o] := by simp
    exact (not_dpSkip_iff.mpr (hadm o ho)) hsk

lemma dpComplete_step {pre : List Order} {W : Nat} {dp : Nat → Int}
    (h : dpComplete pre W dp) {o : Order} (ho : admissible W o) :
    dpComplete (pre ++ [o]) W (stepVal W dp o.weight.toNat o.value) := by
  intro cw hcw s hs hadm hw
  obtain ⟨hwpos, hvpos, hwle⟩ := ho
  have hcast : (o.weight.toNat : Int) = o.weight := Int.toNat_of_nonneg (le_of_lt hwpos)
  rcases List.sublist_append_iff.mp hs with ⟨s₁, s₂, rfl, hs₁, hs₂⟩
  rcases List.sublist_singleton.mp hs₂ with rfl | rfl
  · rw [List.append_nil] at hadm hw ⊢
    exact le_trans (h cw hcw s₁ hs₁ hadm hw) (stepVal_ge W dp _ _ cw)
  · have hadm₁ : ∀ x ∈ s₁, admissible W x := fun x hx => hadm x (by simp [hx])
    have hw₁nn : 0 ≤ calculateTotalWeight s₁ :=
      calculateTotalWeight_nonneg fun x hx => (hadm₁ x hx).1
    rw [calculateTotalWeight_append, calculateTotalWeight_cons,
      calculateTotalWeight_nil] at hw
    have hole : (o.weight.toNat : Int) ≤ (cw : Int) := by rw [hcast]; omega
    have holeN : o.weight.toNat ≤ cw := by exact_mod_cast hole
    have hsub : calculateTotalWeight s₁ ≤ ((cw - o.weight.toNat : Nat) : Int) := by
      rw [Nat.cast_sub holeN, hcast]
      omega
    have hcwW : cw - o.weight.toNat ≤ W := le_trans (Nat.sub_le cw _) hcw
    have hts₁ := h (cw - o.weight.toNat) hcwW s₁ hs₁ hadm₁ hsub
    rw [calculateTotalValue_append, calculateTotalValue_cons, calculateTotalValue_nil]
    have := stepVal_ge_shift W dp o.weight.toNat o.value holeN hcw
    omega

lemma chainInv_step {pre : List Order} {W : Nat} {dp : Nat → Int}
    {ch : Nat → List Nat} (h : chainInv pre W dp ch) {o : Order} (ho : admissible W o) :
    chainInv (pre ++ [o]) W (stepVal W dp o.weight.toNat o.value)
      (stepCh W dp ch pre.length o.weight.toNat o.value) := by
  intro cw hcw
  obtain ⟨hwpos, hvpos, hwle⟩ := ho
  have hcast : (o.weight.toNat : Int) = o.weight := Int.toNat_of_nonneg (le_of_lt hwpos)
  by_cases c : o.weight.toNat ≤ cw ∧ cw ≤ W ∧ dp cw < dp (cw - o.weight.toNat) + o.value
  · have hch : stepCh W dp ch pre.length o.weight.toNat o.value cw =
        pre.length :: ch (cw - o.weight.toNat) := if_pos c
    have hdp : stepVal W dp o.weight.toNat o.value cw =
        dp (cw - o.weight.toNat) + o.value := if_pos c
    have hcw' : cw - o.weight.toNat ≤ W := le_trans (Nat.sub_le cw _) hcw
    obtain ⟨q1, q2, q3, q4⟩ := h (cw - o.weight.toNat) hcw'
    have hbd : ∀ j ∈ ch (cw - o.weight.toNat), j < pre.length := fun j hj => (q2 j hj).1
    have hselcons : chainSel (pre ++ [o]) (pre.length :: ch (cw - o.weight.toNat)) =
        o :: chainSel pre (ch (cw - o.weight.toNat)) := by
      unfold chainSel
      rw [List.map_cons, getD_concat_length]
      congr 1
      exact List.map_congr_left fun j hj =>
        List.getD_append pre [o] defaultOrder j (hbd j hj)
    rw [hch, hdp]
    have hcastsub : ((cw - o.weight.toNat : Nat) : Int) = (cw : Int) - o.weight :=
      by rw [Nat.cast_sub c.1, hcast]
    refine ⟨List.Pairwise.cons (fun a ha => hbd a ha) q1, ?_, ?_, ?_⟩
    · intro j hj
      rcases List.mem_cons.mp hj with rfl | hj'
      · refine ⟨by simp, ?_⟩
        rw [getD_concat_length]
        exact ⟨hwpos, hvpos, hwle⟩
      · refine ⟨lt_of_lt_of_le (hbd j hj') (by simp), ?_⟩
        rw [List.getD_append pre [o] defaultOrder j (hbd j hj')]
        exact (q2 j hj').2
    · rw [hselcons, calculateTotalWeight_cons]
      rw [hcastsub] at q3
      omega
    · rw [hselcons, calculateTotalValue_cons, q4]
      ring
  · have hch : stepCh W dp ch pre.length o.weight.toNat o.value cw = ch cw := if_neg c
    have hdp : stepVal W dp o.weight.toNat o.value cw = dp cw := if_neg c
    rw [hch, hdp]
    exact chainInv_append_one h o cw hcw

/-- The main induction: the DP invariants are preserved along the whole loop. -/
lemma knapGo_inv (W : Nat) :
    ∀ (rest pre : List Order) (dp : Nat → Int) (ch : Nat → List Nat),
      chainInv pre W dp ch → dpMono W dp → dpComplete pre W dp →
      chainInv (pre ++ rest) W (knapGo W rest pre.length dp ch).1
          (knapGo W rest pre.length dp ch).2 ∧
        dpMono W (knapGo W rest pre.length dp ch).1 ∧
        dpComplete (pre ++ rest) W (knapGo W rest pre.length dp ch).1 := by
  intro rest
  induction rest with
  | nil =>
    intro pre dp ch h1 h2 h3
    simpa [knapGo] using ⟨h1, h2, h3⟩
  | cons o rest' ih =>
    intro pre dp ch h1 h2 h3
    have hassoc : pre ++ o :: rest' = (pre ++ [o]) ++ rest' := by simp
    have hlen : (pre ++ [o]).length = pre.length + 1 := by simp
    by_cases hsk : dpSkip W o
    · rw [knapGo, if_pos hsk]
      rw [hassoc]
      have := ih (pre ++ [o]) dp ch (chainInv_append_one h1 o) h2 (dpComplete_skip h3 hsk)
      rwa [hlen] at this
    · rw [knapGo, if_neg hsk]
      rw [hassoc]
      have hadm : admissible W o := not_dpSkip_iff.mp hsk
      have := ih (pre ++ [o]) (stepVal W dp o.weight.toNat o.value)
        (stepCh W dp ch pre.length o.weight.toNat o.value)
        (chainInv_step h1 hadm) (stepVal_mono h2 _ _) (dpComplete_step h3 hadm)
      rwa [hlen] at this

/-- The invariants at the end of the loop, from the zeroed initial buffers. -/
lemma knapFinal_inv (W : Nat) (orders : List Order) :
    chainInv orders W (knapFinal W orders).1 (knapFinal W orders).2 ∧
      dpMono W (knapFinal W orders).1 ∧
      dpComplete orders W (knapFinal W orders).1 := by
  have hinv : chainInv [] W (fun _ => 0) (fun _ => []) := by
    intro cw hcw
    refine ⟨List.Pairwise.nil, ?_, ?_, ?_⟩
    · intro j hj
      cases hj
    · simp [chainSel, calculateTotalWeight]
    · simp [chainSel, calculateTotalValue]
  have hmono : dpMono W (fun _ => 0) := fun _ _ _ _ => le_refl 0
  have hcomp : dpComplete [] W (fun _ => 0) := by
    intro cw hcw s hs hadm hw
    rw [List.sublist_nil.mp hs]
    simp [calculateTotalValue]
  have := knapGo_inv W orders [] (fun _ => 0) (fun _ => []) hinv hmono hcomp
  simpa [knapFinal] using this

/-- The final DP value at slot 0 is 0. -/
lemma dp_zero_eq {pre : List Order} {W : Nat} {dp : Nat → Int} {ch : Nat → List Nat}
    (h : chainInv pre W dp ch) : dp 0 = 0 := by
  obtain ⟨p1, p2, p3, p4⟩ := h 0 (Nat.zero_le W)
  rcases hc : ch 0 with _ | ⟨j, t⟩
  · rw [hc] at p4
    simpa [chainSel, calculateTotalValue] using p4.symm
  · exfalso
    rw [hc] at p2 p3
    have hpos : 0 < calculateTotalWeight (chainSel pre (j :: t)) := by
      apply calculateTotalWeight_pos
      · simp [chainSel]
      · intro x hx
        rcases List.mem_map.mp hx with ⟨j', hj', rfl⟩
        exact (p2 j' hj').2.1
    rw [Nat.cast_zero] at p3
    omega

/-- Every slot of an invariant-satisfying DP state is non-negative. -/
lemma dp_nonneg {pre : List Order} {W : Nat} {dp : Nat → Int}
    (h : dpComplete pre W dp) {cw : Nat} (hcw : cw ≤ W) : 0 ≤ dp cw := by
  have := h cw hcw [] (List.nil_sublist pre) (by intro o ho; cases ho)
    (by simp [calculateTotalWeight])
  simpa [calculateTotalValue] using this

/-! ## Lemmas: the final scan -/

lemma bestScan_zero (dp : Nat → Int) :
    bestScan dp 0 = if dp 0 > 0 then (0, dp 0) else (0, 0) := by
  rw [bestScan, List.range_succ, List.range_zero, List.nil_append, List.foldl_cons,
    List.foldl_nil]

lemma bestScan_succ (dp : Nat → Int) (W : Nat) :
    bestScan dp (W + 1) =
      if dp (W + 1) > (bestScan dp W).2 then (W + 1, dp (W + 1)) else bestScan dp W := by
  rw [bestScan, bestScan, List.range_succ, List.foldl_concat]

lemma bestScan_fst_le (dp : Nat → Int) (W : Nat) : (bestScan dp W).1 ≤ W := by
  induction W with
  | zero =>
    rw [bestScan_zero]
    split <;> simp
  | succ W ih =>
    rw [bestScan_succ]
    split
    · exact le_refl _
    · exact le_trans ih (Nat.le_succ W)

lemma bestScan_spec {W : Nat} {dp : Nat → Int} (hmono : dpMono W dp) (h0 : dp 0 = 0) :
    (bestScan dp W).2 = dp W ∧ dp (bestScan dp W).1 = dp W ∧
      ∀ x, x ≤ W → dp x = dp W → (bestScan dp W).1 ≤ x := by
  induction W with
  | zero =>
    rw [bestScan_zero, if_neg (by omega)]
    exact ⟨h0.symm, h0 ▸ rfl, fun x _ _ => Nat.zero_le x⟩
  | succ W ih =>
    have hmono' : dpMono W dp := fun x y hxy hyW => hmono x y hxy (le_trans hyW (Nat.le_succ W))
    obtain ⟨ih1, ih2, ih3⟩ := ih hmono'
    have hWle : dp W ≤ dp (W + 1) := hmono W (W + 1) (Nat.le_succ W) (le_refl _)
    rw [bestScan_succ]
    by_cases hgt : dp (W + 1) > (bestScan dp W).2
    · rw [if_pos hgt]
      refine ⟨rfl, rfl, ?_⟩
      intro x hx hdx
      by_cases hxW : x ≤ W
      · exfalso
        have h1 : dp x ≤ dp W := hmono' x W hxW (le_refl W)
        rw [ih1] at hgt
        omega
      · omega
    · rw [if_neg hgt]
      have heq : dp (W + 1) = dp W := by
        rw [ih1] at hgt
        omega
      refine ⟨by rw [ih1, heq], by rw [ih2, heq], ?_⟩
      intro x hx hdx
      by_cases hxW : x ≤ W
      · exact ih3 x hxW (by rw [hdx, heq])
      · exact le_trans (bestScan_fst_le dp W) (by omega)

/-! ## Lemmas: strictly increasing index selections are sublists -/

lemma incr_index_map_sublist (l : List Order) :
    ∀ ix : List Nat, ix.Pairwise (· < ·) → (hbd : ∀ j ∈ ix, j < l.length) →
      (ix.map (fun j => l.getD j defaultOrder)).Sublist l := by
  intro ix hinc hbd
  have hfin : (List.pmap (fun j (h : j < l.length) => (⟨j, h⟩ : Fin l.length)) ix hbd).Pairwise
      (· < ·) := by
    rw [List.pairwise_pmap]
    exact hinc.imp fun {a b} hab => fun h₁ h₂ => hab
  have hsub := List.map_getElem_sublist hfin
  rw [List.map_pmap] at hsub
  have : List.pmap (fun j h => l[(⟨j, h⟩ : Fin l.length)]) ix hbd =
      ix.map (fun j => l.getD j defaultOrder) := by
    calc List.pmap (fun j h => l[(⟨j, h⟩ : Fin l.length)]) ix hbd
        = List.pmap (fun j _ => l.getD j defaultOrder) ix hbd := by
          apply List.pmap_congr_left
          intro j hj h₁ h₂
          exact (List.getD_eq_getElem l defaultOrder h₁).symm
      _ = ix.map (fun j => l.getD j defaultOrder) := List.pmap_eq_map _ _ ix hbd
  rwa [this] at hsub

/-- The selection of a decreasing chain is, reversed, a sublist of the list. -/
lemma chainSel_reverse_sublist {pre : List Order} {ix : List Nat}
    (hdec : ix.Pairwise (fun a b => b < a)) (hbd : ∀ j ∈ ix, j < pre.length) :
    (chainSel pre ix).reverse.Sublist pre := by
  unfold chainSel
  rw [← List.map_reverse]
  apply incr_index_map_sublist
  · rw [List.pairwise_reverse]
    exact hdec
  · intro j hj
    exact hbd j (List.mem_reverse.mp hj)

/-! ## Lemmas: the spec-side subset optimum -/

lemma totalValue_le_subsetMaxValue {orders s : List Order} {c : Int}
    (hs : s.Sublist orders) (hw : calculateTotalWeight s ≤ c) :
    calculateTotalValue s ≤ subsetMaxValue orders c := by
  apply le_foldl_max_of_mem
  apply List.mem_map.mpr
  refine ⟨s, ?_, rfl⟩
  unfold feasibleSubsets
  rw [List.mem_filter]
  exact ⟨List.mem_sublists.mpr hs, by simpa using hw⟩

lemma subsetMaxValue_nonneg {orders : List Order} {c : Int} (hc : 0 ≤ c) :
    0 ≤ subsetMaxValue orders c := by
  have h0 : calculateTotalValue [] ≤ subsetMaxValue orders c :=
    totalValue_le_subsetMaxValue (List.nil_sublist orders)
      (by simpa [calculateTotalWeight] using hc)
  simpa [calculateTotalValue] using h0

lemma subsetMaxValue_attained {orders : List Order} {c : Int} (hc : 0 ≤ c) :
    ∃ s, s.Sublist orders ∧ calculateTotalWeight s ≤ c ∧
      calculateTotalValue s = subsetMaxValue orders c := by
  rcases foldl_max_mem_or ((feasibleSubsets orders c).map calculateTotalValue) 0 with h | h
  · refine ⟨[], List.nil_sublist orders, by simpa [calculateTotalWeight] using hc, ?_⟩
    unfold subsetMaxValue
    rw [h]
    rfl
  · rcases List.mem_map.mp h with ⟨s, hsmem, hval⟩
    rw [feasibleSubsets, List.mem_filter] at hsmem
    exact ⟨s, List.mem_sublists.mp hsmem.1, by simpa using hsmem.2, hval⟩

/-! ## Lemmas: assembling `dpSolution` -/

lemma goList_ite (l : List Order) : goList (if l = [] then none else some l) = l := by
  split
  · next h => simp [goList, h]
  · simp [goList]

lemma dpSolution_orders_eq (orders : List Order) (rid : String) (W : Nat) :
    goList (dpSolution orders rid W).orders =
      chainSel orders ((knapFinal W orders).2 (bestScan (knapFinal W orders).1 W).1) :=
  goList_ite _

lemma dpSolution_totalWeight_eq (orders : List Order) (rid : String) (W : Nat) :
    (dpSolution orders rid W).totalWeight =
      calculateTotalWeight
        (chainSel orders ((knapFinal W orders).2 (bestScan (knapFinal W orders).1 W).1)) :=
  rfl

lemma dpSolution_totalValue_eq (orders : List Order) (rid : String) (W : Nat) :
    (dpSolution orders rid W).totalValue =
      calculateTotalValue
        (chainSel orders ((knapFinal W orders).2 (bestScan (knapFinal W orders).1 W).1)) :=
  rfl

/-- The final DP value at the full capacity is the subset optimum, for inputs
of positive weight and non-negative value. -/
lemma dpFinal_opt (orders : List Order) (W : Nat)
    (hadm : ∀ o ∈ orders, 0 < o.weight ∧ 0 ≤ o.value) :
    (knapFinal W orders).1 W = subsetMaxValue orders (W : Int) := by
  obtain ⟨hinv, hmono, hcomp⟩ := knapFinal_inv W orders
  apply le_antisymm
  · obtain ⟨p1, p2, p3, p4⟩ := hinv W (le_refl W)
    rw [← p4, ← calculateTotalValue_reverse]
    apply totalValue_le_subsetMaxValue (chainSel_reverse_sublist p1 fun j hj => (p2 j hj).1)
    rw [calculateTotalWeight_reverse]
    exact p3
  · rcases @subsetMaxValue_attained orders ((W : Int)) (Int.natCast_nonneg W)
      with ⟨s, hs, hws, hvs⟩
    rw [← hvs]
    apply hcomp W (le_refl W) s hs ?_ hws
    intro o hos
    have hmem := hs.subset hos
    refine ⟨(hadm o hmem).1, (hadm o hmem).2, ?_⟩
    have := weight_le_calculateTotalWeight hos fun x hx => (hadm x (hs.subset hx)).1
    omega

/-- The reconstructed selection's weight is exactly the scanned best weight,
which is the minimum weight among value-optimal feasible subsets. -/
lemma dpFinal_tie (orders : List Order) (W : Nat)
    (hadm : ∀ o ∈ orders, 0 < o.weight ∧ 0 ≤ o.value) :
    calculateTotalWeight
        (chainSel orders ((knapFinal W orders).2 (bestScan (knapFinal W orders).1 W).1)) =
      ((bestScan (knapFinal W orders).1 W).1 : Int) ∧
    ((bestScan (knapFinal W orders).1 W).1 : Int) = minTieWeight orders (W : Int) := by
  obtain ⟨hinv, hmono, hcomp⟩ := knapFinal_inv W orders
  have h0 := dp_zero_eq hinv
  obtain ⟨s1, s2, s3⟩ := bestScan_spec hmono h0
  have hopt := dpFinal_opt orders W hadm
  set dp := (knapFinal W orders).1 with hdp
  set bw := (bestScan dp W).1 with hbw
  have hbwW : bw ≤ W := bestScan_fst_le dp W
  obtain ⟨p1, p2, p3, p4⟩ := hinv bw hbwW
  set picked := chainSel orders ((knapFinal W orders).2 bw) with hpicked
  -- the reconstructed selection is feasible and value-optimal
  have hsub : picked.reverse.Sublist orders :=
    chainSel_reverse_sublist p1 fun j hj => (p2 j hj).1
  have hwfeas : calculateTotalWeight picked.reverse ≤ (W : Int) := by
    rw [calculateTotalWeight_reverse]
    exact le_trans p3 (by exact_mod_cast Nat.cast_le.mpr hbwW)
  have hvopt : calculateTotalValue picked.reverse = subsetMaxValue orders (W : Int) := by
    rw [calculateTotalValue_reverse, p4, s2, hopt]
  have hmem : calculateTotalWeight picked ∈
      (((feasibleSubsets orders (W : Int)).filter
        (fun s => decide (calculateTotalValue s = subsetMaxValue orders (W : Int)))).map
        calculateTotalWeight) := by
    apply List.mem_map.mpr
    refine ⟨picked.reverse, ?_, calculateTotalWeight_reverse picked⟩
    rw [List.mem_filter]
    constructor
    · rw [feasibleSubsets, List.mem_filter]
      exact ⟨List.mem_sublists.mpr hsub, by simpa using hwfeas⟩
    · simpa using hvopt
  have hupper : minTieWeight orders (W : Int) ≤ calculateTotalWeight picked :=
    foldl_min_le_of_mem hmem _
  have hlower : (bw : Int) ≤ minTieWeight orders (W : Int) := by
    apply le_foldl_min
    · exact_mod_cast Nat.cast_le.mpr hbwW
    · intro a ha
      rcases List.mem_map.mp ha with ⟨s, hsmem, rfl⟩
      rw [List.mem_filter] at hsmem
      obtain ⟨hsfeas, hsval⟩ := hsmem
      rw [feasibleSubsets, List.mem_filter] at hsfeas
      obtain ⟨hssub, hsw⟩ := hsfeas
      have hssub' := List.mem_sublists.mp hssub
      have hsw' : calculateTotalWeight s ≤ (W : Int) := by simpa using hsw
      have hsval' : calculateTotalValue s = subsetMaxValue orders (W : Int) := by
        simpa using hsval
      have hsadm : ∀ o ∈ s, admissible W o := by
        intro o hos
        have hmem' := hssub'.subset hos
        refine ⟨(hadm o hmem').1, (hadm o hmem').2, ?_⟩
        have := weight_le_calculateTotalWeight hos fun x hx => (hadm x (hssub'.subset hx)).1
        omega
      have hwnn : 0 ≤ calculateTotalWeight s :=
        calculateTotalWeight_nonneg fun x hx => (hadm x (hssub'.subset hx)).1
      set x := (calculateTotalWeight s).toNat with hxdef
      have hxcast : (x : Int) = calculateTotalWeight s := Int.toNat_of_nonneg hwnn
      have hxW : x ≤ W := by
        have : (x : Int) ≤ (W : Int) := by rw [hxcast]; exact hsw'
        exact_mod_cast this
      have hge : subsetMaxValue orders (W : Int) ≤ dp x := by
        rw [← hsval']
        exact hcomp x hxW s hssub' hsadm (le_of_eq hxcast.symm)
      have hle : dp x ≤ dp W := hmono x W hxW (le_refl W)
      have hdx : dp x = dp W := le_antisymm hle (by rw [hopt]; exact hge)
      have := s3 x hxW hdx
      rw [← hxcast]
      exact_mod_cast this
  exact ⟨le_antisymm p3 (le_trans hlower hupper), le_antisymm hlower (le_trans hupper p3)⟩

/-- The value array of the `choose`/`prevW` loop coincides with the value
array of the pointer-chain loop. -/
lemma knapGo2_fst (W : Nat) :
    ∀ (rest : List Order) (i : Nat) (dp choose prevW : Nat → Int) (ch : Nat → List Nat),
      (knapGo2 W rest i dp choose prevW).1 = (knapGo W rest i dp ch).1 := by
  intro rest
  induction rest with
  | nil => intro i dp choose prevW ch; rfl
  | cons o rest' ih =>
    intro i dp choose prevW ch
    rw [knapGo2, knapGo]
    by_cases h : dpSkip W o
    · rw [if_pos h, if_pos h]
      exact ih _ _ _ _ _
    · rw [if_neg h, if_neg h]
      exact ih _ _ _ _ _

lemma knap2Final_fst (W : Nat) (orders : List Order) :
    (knap2Final W orders).1 = (knapFinal W orders).1 := by
  unfold knap2Final knapFinal
  exact knapGo2_fst W orders 0 _ _ _ _

lemma subsetMaxValue_zero_cap (orders : List Order)
    (hadm : ∀ o ∈ orders, 0 < o.weight ∧ 0 ≤ o.value) :
    subsetMaxValue orders 0 = 0 := by
  apply le_antisymm
  · apply foldl_max_le (le_refl 0)
    intro a ha
    rcases List.mem_map.mp ha with ⟨s, hsmem, rfl⟩
    rw [feasibleSubsets, List.mem_filter] at hsmem
    obtain ⟨hssub, hsw⟩ := hsmem
    have hssub' := List.mem_sublists.mp hssub
    have hsw' : calculateTotalWeight s ≤ 0 := by simpa using hsw
    rcases s with _ | ⟨o, t⟩
    · simp [calculateTotalValue]
    · exfalso
      have := @calculateTotalWeight_pos (o :: t) (by simp)
        fun x hx => (hadm x (hssub'.subset hx)).1
      omega
  · exact subsetMaxValue_nonneg (le_refl 0)

lemma minTieWeight_zero_cap (orders : List Order)
    (hadm : ∀ o ∈ orders, 0 < o.weight ∧ 0 ≤ o.value) :
    minTieWeight orders 0 = 0 := by
  apply le_antisymm
  · exact foldl_min_le _ 0
  · apply le_foldl_min (le_refl 0)
    intro a ha
    rcases List.mem_map.mp ha with ⟨s, hsmem, rfl⟩
    rw [List.mem_filter] at hsmem
    rw [feasibleSubsets, List.mem_filter] at hsmem
    obtain ⟨⟨hssub, hsw⟩, _⟩ := hsmem
    exact calculateTotalWeight_nonneg
      fun x hx => (hadm x ((List.mem_sublists.mp hssub).subset hx)).1

lemma minTieWeight_nil {c : Int} (hc : 0 ≤ c) : minTieWeight [] c = 0 := by
  have hfeas : feasibleSubsets [] c = [[]] := by
    unfold feasibleSubsets
    simp [calculateTotalWeight, hc]
  have hmax : subsetMaxValue [] c = 0 := by
    unfold subsetMaxValue
    rw [hfeas]
    simp [calculateTotalValue]
  unfold minTieWeight
  rw [hfeas, hmax]
  simp [calculateTotalValue, calculateTotalWeight, min_eq_right hc]

/-! ## Claim theorems: the exact solver -/

/-- C1: For every list of shipments with positive weights and non-negative
values and every capacity `W ≥ 0`, the total value of the Plan returned by the
exact DP solver equals the maximum, over all subsets of the input whose total
weight is ≤ `W`, of that subset's total value; and on shipments
`[(1,w5,v10), (2,w4,v40), (3,w6,v30), (4,w3,v50)]` with capacity 10 it selects
exactly the shipments with ids {2, 4}, total weight 7, total value 90. -/
theorem C1_exact_solver_optimal :
    (∀ (orders : List Order) (robotID : String) (W : Nat),
        (∀ o ∈ orders, 0 < o.weight ∧ 0 ≤ o.value) →
        (dpSolution orders robotID W).totalValue = subsetMaxValue orders (W : Int)) ∧
      (dpSolution [⟨1, 1, 5, 10⟩, ⟨2, 2, 4, 40⟩, ⟨3, 3, 6, 30⟩, ⟨4, 4, 3, 50⟩]
          "robot-1" 10).totalWeight = 7 ∧
      (dpSolution [⟨1, 1, 5, 10⟩, ⟨2, 2, 4, 40⟩, ⟨3, 3, 6, 30⟩, ⟨4, 4, 3, 50⟩]
          "robot-1" 10).totalValue = 90 ∧
      (goList (dpSolution [⟨1, 1, 5, 10⟩, ⟨2, 2, 4, 40⟩, ⟨3, 3, 6, 30⟩, ⟨4, 4, 3, 50⟩]
          "robot-1" 10).orders).map Order.orderID = [4, 2] := by
  refine ⟨?_, by decide, by decide, by decide⟩
  intro orders rid W hadm
  obtain ⟨hinv, hmono, hcomp⟩ := knapFinal_inv W orders
  have h0 := dp_zero_eq hinv
  obtain ⟨s1, s2, s3⟩ := bestScan_spec hmono h0
  have hbwW : (bestScan (knapFinal W orders).1 W).1 ≤ W := bestScan_fst_le _ W
  obtain ⟨p1, p2, p3, p4⟩ := hinv _ hbwW
  rw [dpSolution_totalValue_eq, p4, s2, dpFinal_opt orders W hadm]

/-- Witness for C1's general statement at the concrete scenario. -/
theorem C1_exact_solver_optimal_witness :
    (dpSolution [⟨1, 1, 5, 10⟩, ⟨2, 2, 4, 40⟩, ⟨3, 3, 6, 30⟩, ⟨4, 4, 3, 50⟩]
        "robot-1" 10).totalValue =
      subsetMaxValue [⟨1, 1, 5, 10⟩, ⟨2, 2, 4, 40⟩, ⟨3, 3, 6, 30⟩, ⟨4, 4, 3, 50⟩] (10 : Int) :=
  C1_exact_solver_optimal.1 [⟨1, 1, 5, 10⟩, ⟨2, 2, 4, 40⟩, ⟨3, 3, 6, 30⟩, ⟨4, 4, 3, 50⟩]
    "robot-1" 10 (by decide)

/-- C2 fails on the `choose`/`prevW` variant: on orders
`[(1,w2,v3), (2,w2,v4)]` with capacity 4, the later item's update overwrites
the `choose` entry the winning chain relied on, the reconstruction picks order
2 twice, and the reported `TotalValue` (`bestV = 7`) differs from the sum of
values of the returned `Orders` (8). -/
theorem C2_counterexample :
    (bestSelectOrdersForDelivery2 [⟨1, 1, 2, 3⟩, ⟨2, 2, 2, 4⟩] "robot-1" 4).totalValue ≠
      calculateTotalValue
        (goList (bestSelectOrdersForDelivery2 [⟨1, 1, 2, 3⟩, ⟨2, 2, 2, 4⟩]
          "robot-1" 4).orders) := by
  decide

/-- C2 (amended): the pointer-chain exact solver `dpSolution` always returns a
plan whose totals are the sums over its `Orders` and whose total weight fits
the capacity; the `choose`/`prevW` variant still guarantees
`TotalWeight = bestW ≤ capacity`, but its reconstructed `Orders` need not have
totals matching `bestW`/`bestV`. -/
theorem C2_amended (orders orders2 : List Order) (rid rid2 : String) (W : Nat) (c : Int)
    (hc : 0 ≤ c) :
    ((dpSolution orders rid W).totalWeight =
        calculateTotalWeight (goList (dpSolution orders rid W).orders) ∧
      (dpSolution orders rid W).totalValue =
        calculateTotalValue (goList (dpSolution orders rid W).orders) ∧
      (dpSolution orders rid W).totalWeight ≤ (W : Int)) ∧
    (bestSelectOrdersForDelivery2 orders2 rid2 c).totalWeight ≤ c := by
  constructor
  · obtain ⟨hinv, hmono, hcomp⟩ := knapFinal_inv W orders
    have hbwW : (bestScan (knapFinal W orders).1 W).1 ≤ W := bestScan_fst_le _ W
    obtain ⟨p1, p2, p3, p4⟩ := hinv _ hbwW
    refine ⟨?_, ?_, ?_⟩
    · rw [dpSolution_totalWeight_eq, dpSolution_orders_eq]
    · rw [dpSolution_totalValue_eq, dpSolution_orders_eq]
    · rw [dpSolution_totalWeight_eq]
      exact le_trans p3 (by exact_mod_cast Nat.cast_le.mpr hbwW)
  · unfold bestSelectOrdersForDelivery2
    split
    · exact hc
    · show ((bestScan (knap2Final c.toNat orders2).1 c.toNat).1 : Int) ≤ c
      have h1 : (bestScan (knap2Final c.toNat orders2).1 c.toNat).1 ≤ c.toNat :=
        bestScan_fst_le _ _
      have h2 : ((bestScan (knap2Final c.toNat orders2).1 c.toNat).1 : Int) ≤
          (c.toNat : Int) := Nat.cast_le.mpr h1
      rwa [Int.toNat_of_nonneg hc] at h2

/-- Witness for C2 (amended) at a concrete input. -/
theorem C2_amended_witness :
    ((dpSolution [⟨1, 1, 2, 3⟩] "robot-1" 4).totalWeight =
        calculateTotalWeight (goList (dpSolution [⟨1, 1, 2, 3⟩] "robot-1" 4).orders) ∧
      (dpSolution [⟨1, 1, 2, 3⟩] "robot-1" 4).totalValue =
        calculateTotalValue (goList (dpSolution [⟨1, 1, 2, 3⟩] "robot-1" 4).orders) ∧
      (dpSolution [⟨1, 1, 2, 3⟩] "robot-1" 4).totalWeight ≤ (4 : Int)) ∧
    (bestSelectOrdersForDelivery2 [⟨1, 1, 2, 3⟩, ⟨2, 2, 2, 4⟩] "robot-2" 4).totalWeight ≤ 4 := by
  have := C2_amended [⟨1, 1, 2, 3⟩] [⟨1, 1, 2, 3⟩, ⟨2, 2, 2, 4⟩] "robot-1" "robot-2" 4 4
    (by decide)
  simpa using this

/-- C4: no shipment with non-positive weight, negative value, or weight above
the capacity ever appears in the exact solver's plan, both at the
`dpSolution` level and through `bestSelectOrdersForDelivery`'s pre-filter. -/
theorem C4_filtered_never_selected (orders : List Order) (rid : String) (W : Nat) (c : Int) :
    (∀ o ∈ goList (dpSolution orders rid W).orders,
      0 < o.weight ∧ 0 ≤ o.value ∧ o.weight ≤ (W : Int)) ∧
    (∀ o ∈ goList (bestSelectOrdersForDelivery1 orders rid c).orders,
      0 < o.weight ∧ 0 ≤ o.value ∧ o.weight ≤ c) := by
  have main : ∀ (l : List Order) (r : String) (W' : Nat),
      ∀ o ∈ goList (dpSolution l r W').orders,
        0 < o.weight ∧ 0 ≤ o.value ∧ o.weight ≤ (W' : Int) := by
    intro l r W' o ho
    rw [dpSolution_orders_eq] at ho
    obtain ⟨hinv, hmono, hcomp⟩ := knapFinal_inv W' l
    have hbwW : (bestScan (knapFinal W' l).1 W').1 ≤ W' := bestScan_fst_le _ W'
    obtain ⟨p1, p2, p3, p4⟩ := hinv _ hbwW
    rcases List.mem_map.mp ho with ⟨j, hj, rfl⟩
    exact (p2 j hj).2
  refine ⟨main orders rid W, ?_⟩
  unfold bestSelectOrdersForDelivery1
  split
  · intro o ho
    simp [goList] at ho
  · next hguard =>
    dsimp only
    split
    · intro o ho
      simp [goList] at ho
    · intro o ho
      have hc : 0 < c := by
        push_neg at hguard
        omega
      have := main _ rid c.toNat o ho
      rwa [Int.toNat_of_nonneg (le_of_lt hc)] at this

/-- Witness for C4 at a concrete input where an order is selected. -/
theorem C4_filtered_never_selected_witness :
    0 < (2 : Int) ∧ 0 ≤ (3 : Int) ∧ (2 : Int) ≤ (4 : Int) := by
  have h := (C4_filtered_never_selected [⟨1, 1, 2, 3⟩] "robot-1" 4 4).1
    ⟨1, 1, 2, 3⟩ (by decide)
  exact h

/-- C9: for inputs of positive weight and non-negative value, the exact
solver's final scan realises the minimum-weight tie-break: the plan's total
weight is the smallest total weight among the feasible subsets attaining the
optimal value, in the pointer-chain variant (where the reconstruction achieves
it) and in the `choose`/`prevW` variant (whose reported `TotalWeight` is the
scanned best weight). -/
theorem C9_min_weight_tie_break (orders : List Order) (rid : String) (W : Nat)
    (hadm : ∀ o ∈ orders, 0 < o.weight ∧ 0 ≤ o.value) :
    (dpSolution orders rid W).totalWeight = minTieWeight orders (W : Int) ∧
    (bestSelectOrdersForDelivery2 orders rid (W : Int)).totalWeight =
      minTieWeight orders (W : Int) := by
  obtain ⟨htie1, htie2⟩ := dpFinal_tie orders W hadm
  constructor
  · rw [dpSolution_totalWeight_eq, htie1, htie2]
  · unfold bestSelectOrdersForDelivery2
    split
    · next hguard =>
      rcases hguard with hnil | hle
      · rcases List.length_eq_zero.mp hnil with rfl
        simpa using (minTieWeight_nil (Int.natCast_nonneg W)).symm
      · have hW0 : W = 0 := by omega
        subst hW0
        simpa using (minTieWeight_zero_cap orders hadm).symm
    · show ((bestScan (knap2Final ((W : Int)).toNat orders).1 ((W : Int)).toNat).1 : Int) =
        minTieWeight orders (W : Int)
      rw [Int.toNat_natCast, knap2Final_fst, htie2]

/-- Witness for C9 at the concrete scenario of the spec. -/
theorem C9_min_weight_tie_break_witness :
    (dpSolution [⟨1, 1, 5, 10⟩, ⟨2, 2, 4, 40⟩, ⟨3, 3, 6, 30⟩, ⟨4, 4, 3, 50⟩]
        "robot-1" 10).totalWeight =
      minTieWeight [⟨1, 1, 5, 10⟩, ⟨2, 2, 4, 40⟩, ⟨3, 3, 6, 30⟩, ⟨4, 4, 3, 50⟩] (10 : Int) :=
  (C9_min_weight_tie_break [⟨1, 1, 5, 10⟩, ⟨2, 2, 4, 40⟩, ⟨3, 3, 6, 30⟩, ⟨4, 4, 3, 50⟩]
    "robot-1" 10 (by decide)).1

/-! ## Lemmas: the fallback selection -/

lemma fb_foldl_skip {c : Int} : ∀ (l : List Order) (acc : Option Order),
    (∀ o ∈ l, o.weight ≤ 0 ∨ c < o.weight) → l.foldl (fbStep c) acc = acc := by
  intro l
  induction l with
  | nil => intro acc _; rfl
  | cons o t ih =>
    intro acc hall
    rw [List.foldl_cons]
    have hstep : fbStep c acc o = acc := by
      unfold fbStep
      rw [if_pos (hall o (List.mem_cons_self o t))]
    rw [hstep]
    exact ih acc fun x hx => hall x (List.mem_cons_of_mem o hx)

lemma fbStep_isSome {c : Int} {acc : Option Order} (h : acc.isSome) (o : Order) :
    (fbStep c acc o).isSome := by
  unfold fbStep
  split
  · exact h
  · cases acc with
    | none => rfl
    | some a =>
      show (if a.value < o.value ∨ (o.value = a.value ∧ o.weight < a.weight) then some o
        else some a).isSome = true
      split <;> rfl

lemma fb_foldl_isSome {c : Int} : ∀ (l : List Order) (acc : Option Order),
    acc.isSome ∨ (∃ o ∈ l, 0 < o.weight ∧ o.weight ≤ c) →
    (l.foldl (fbStep c) acc).isSome := by
  intro l
  induction l with
  | nil =>
    intro acc h
    rcases h with h | ⟨o, ho, _⟩
    · exact h
    · cases ho
  | cons o t ih =>
    intro acc h
    rw [List.foldl_cons]
    rcases h with h | ⟨x, hx, hx1, hx2⟩
    · exact ih _ (Or.inl (fbStep_isSome h o))
    · rcases List.mem_cons.mp hx with rfl | hxt
      · apply ih
        left
        unfold fbStep
        rw [if_neg (by omega)]
        cases acc with
        | none => rfl
        | some a =>
          show (if a.value < x.value ∨ (x.value = a.value ∧ x.weight < a.weight) then some x
            else some a).isSome = true
          split <;> rfl
      · exact ih _ (Or.inr ⟨x, hxt, hx1, hx2⟩)

lemma fb_foldl_best {c : Int} : ∀ (l : List Order) (acc : Option Order) (b : Order),
    l.foldl (fbStep c) acc = some b →
    (acc = some b ∨ (b ∈ l ∧ 0 < b.weight ∧ b.weight ≤ c)) ∧
      (∀ o ∈ l, 0 < o.weight → o.weight ≤ c → ¬fbBetter o b) ∧
      (∀ a, acc = some a → ¬fbBetter a b) := by
  intro l
  induction l with
  | nil =>
    intro acc b h
    rw [List.foldl_nil] at h
    refine ⟨Or.inl h, fun o ho => absurd ho (List.not_mem_nil o), ?_⟩
    intro a ha
    rw [ha] at h
    cases h
    unfold fbBetter
    omega
  | cons o t ih =>
    intro acc b h
    rw [List.foldl_cons] at h
    obtain ⟨src', hall', hacc'⟩ := ih (fbStep c acc o) b h
    by_cases hel : o.weight ≤ 0 ∨ c < o.weight
    · have hstep : fbStep c acc o = acc := by unfold fbStep; rw [if_pos hel]
      rw [hstep] at src' hacc'
      refine ⟨?_, ?_, hacc'⟩
      · rcases src' with h' | ⟨hmem, hb⟩
        · exact Or.inl h'
        · exact Or.inr ⟨List.mem_cons_of_mem o hmem, hb⟩
      · intro x hx hx1 hx2
        rcases List.mem_cons.mp hx with rfl | hxt
        · omega
        · exact hall' x hxt hx1 hx2
    · push_neg at hel
      cases acc with
      | none =>
        have hstep : fbStep c none o = some o := by
          unfold fbStep
          rw [if_neg (by omega)]
        rw [hstep] at src' hacc'
        refine ⟨?_, ?_, ?_⟩
        · rcases src' with h' | ⟨hmem, hb⟩
          · cases h'
            exact Or.inr ⟨List.mem_cons_self o t, by omega, by omega⟩
          · exact Or.inr ⟨List.mem_cons_of_mem o hmem, hb⟩
        · intro x hx hx1 hx2
          rcases List.mem_cons.mp hx with rfl | hxt
          · exact hacc' x rfl
          · exact hall' x hxt hx1 hx2
        · intro a ha
          cases ha
      | some a0 =>
        by_cases hbet : a0.value < o.value ∨ (o.value = a0.value ∧ o.weight < a0.weight)
        · have hstep : fbStep c (some a0) o = some o := by
            unfold fbStep
            rw [if_neg (by omega)]
            show (if a0.value < o.value ∨ (o.value = a0.value ∧ o.weight < a0.weight) then some o
              else some a0) = some o
            rw [if_pos hbet]
          rw [hstep] at src' hacc'
          have hob : ¬fbBetter o b := hacc' o rfl
          refine ⟨?_, ?_, ?_⟩
          · rcases src' with h' | ⟨hmem, hb⟩
            · cases h'
              exact Or.inr ⟨List.mem_cons_self o t, by omega, by omega⟩
            · exact Or.inr ⟨List.mem_cons_of_mem o hmem, hb⟩
          · intro x hx hx1 hx2
            rcases List.mem_cons.mp hx with rfl | hxt
            · exact hob
            · exact hall' x hxt hx1 hx2
          · intro a ha
            cases ha
            unfold fbBetter at hob ⊢
            omega
        · have hstep : fbStep c (some a0) o = some a0 := by
            unfold fbStep
            rw [if_neg (by omega)]
            show (if a0.value < o.value ∨ (o.value = a0.value ∧ o.weight < a0.weight) then some o
              else some a0) = some a0
            rw [if_neg hbet]
          rw [hstep] at src' hacc'
          have ha0b : ¬fbBetter a0 b := hacc' a0 rfl
          refine ⟨?_, ?_, ?_⟩
          · rcases src' with h' | ⟨hmem, hb⟩
            · exact Or.inl h'
            · exact Or.inr ⟨List.mem_cons_of_mem o hmem, hb⟩
          · intro x hx hx1 hx2
            rcases List.mem_cons.mp hx with rfl | hxt
            · unfold fbBetter at ha0b ⊢
              omega
            · exact hall' x hxt hx1 hx2
          · intro a ha
            cases ha
            exact ha0b

lemma selectFallbackOrder_none {orders : List Order} {c : Int}
    (h : ∀ o ∈ orders, o.weight ≤ 0 ∨ c < o.weight) :
    selectFallbackOrder orders c = none :=
  fb_foldl_skip orders none h

lemma selectFallbackOrder_isSome {orders : List Order} {c : Int}
    (h : ∃ o ∈ orders, 0 < o.weight ∧ o.weight ≤ c) :
    (selectFallbackOrder orders c).isSome :=
  fb_foldl_isSome orders none (Or.inr h)

lemma selectFallbackOrder_best {orders : List Order} {c : Int} {b : Order}
    (h : selectFallbackOrder orders c = some b) :
    (b ∈ orders ∧ 0 < b.weight ∧ b.weight ≤ c) ∧
      ∀ o ∈ orders, 0 < o.weight → o.weight ≤ c → ¬fbBetter o b := by
  obtain ⟨src, hall, _⟩ := fb_foldl_best orders none b h
  rcases src with h' | h'
  · cases h'
  · exact ⟨h', hall⟩

/-! ## Claim theorems: empty plans and the fallback -/

/-- C3 fails as stated: a single shipment with positive weight within capacity
but negative value is excluded by the solver's filter (so the claim's
"every shipment is filtered out" premise holds), yet `GenerateDeliveryPlan`'s
single-item fallback — which never checks `value < 0` — selects it, returning
a non-empty plan with `TotalValue = -1`. -/
theorem C3_counterexample :
    (∀ o ∈ [(⟨1, 1, 1, -1⟩ : Order)], o.weight ≤ 0 ∨ o.value < 0 ∨ (10 : Int) < o.weight) ∧
    (generateDeliveryPlanCore [⟨1, 1, 1, -1⟩] "robot-1" 10).totalValue = -1 ∧
    goList (generateDeliveryPlanCore [⟨1, 1, 1, -1⟩] "robot-1" 10).orders ≠ [] := by
  decide

/-- C3 (amended): if the input is empty, or the capacity is ≤ 0, or every
shipment is filtered out (weight ≤ 0, value < 0, or weight > capacity), then
`bestSelectOrdersForDelivery` returns, without error, a plan with zero totals
and an empty non-nil `Orders`; the same holds at the `GenerateDeliveryPlan`
interface provided every shipment is excluded for a weight reason (the
single-item fallback ignores the value filter). -/
theorem C3_amended (orders : List Order) (rid : String) (c : Int)
    (h : orders = [] ∨ c ≤ 0 ∨ ∀ o ∈ orders, o.weight ≤ 0 ∨ o.value < 0 ∨ c < o.weight) :
    bestSelectOrdersForDelivery1 orders rid c = ⟨rid, 0, 0, some []⟩ ∧
    ((orders = [] ∨ c ≤ 0 ∨ ∀ o ∈ orders, o.weight ≤ 0 ∨ c < o.weight) →
      generateDeliveryPlanCore orders rid c = ⟨rid, 0, 0, some []⟩) := by
  have hmain : bestSelectOrdersForDelivery1 orders rid c = ⟨rid, 0, 0, some []⟩ := by
    unfold bestSelectOrdersForDelivery1
    rcases h with rfl | hc | hall
    · simp
    · rw [if_pos (Or.inr hc)]
    · by_cases hg : orders.length = 0 ∨ c ≤ 0
      · rw [if_pos hg]
      · rw [if_neg hg]
        dsimp only
        have hfe : orders.filter (fun o =>
            !(decide (o.weight ≤ 0) || decide (o.value < 0) || decide (c < o.weight))) = [] := by
          rw [List.filter_eq_nil_iff]
          intro a ha
          rcases hall a ha with h1 | h1 | h1 <;> simp [h1]
        rw [hfe]
        rfl
  refine ⟨hmain, ?_⟩
  intro h2
  have hfb : selectFallbackOrder orders c = none := by
    rcases h2 with rfl | hc | hall2
    · rfl
    · exact selectFallbackOrder_none fun o ho => by omega
    · exact selectFallbackOrder_none hall2
  unfold generateDeliveryPlanCore
  rw [hmain]
  simp [goList, hfb]

/-- Witness for C3 (amended) at a concrete input. -/
theorem C3_amended_witness :
    bestSelectOrdersForDelivery1 [] "robot-1" 5 = ⟨"robot-1", 0, 0, some []⟩ ∧
    generateDeliveryPlanCore [] "robot-1" 5 = ⟨"robot-1", 0, 0, some []⟩ := by
  have h := C3_amended [] "robot-1" 5 (Or.inl rfl)
  exact ⟨h.1, h.2 (Or.inl rfl)⟩

/-- C5: when the main solver returns an empty plan but some shipment
individually fits (`0 < weight ≤ capacity`), the `GenerateDeliveryPlan`
pipeline returns a non-empty single-order plan whose order fits and has the
highest value among the individually fitting shipments, ties broken by the
lowest weight. -/
theorem C5_fallback (orders : List Order) (rid : String) (c : Int)
    (hsome : ∃ o ∈ orders, 0 < o.weight ∧ o.weight ≤ c)
    (hempty : goList (bestSelectOrdersForDelivery1 orders rid c).orders = []) :
    ∃ b, generateDeliveryPlanCore orders rid c = ⟨rid, b.weight, b.value, some [b]⟩ ∧
      0 < b.weight ∧ b.weight ≤ c ∧
      ∀ o ∈ orders, 0 < o.weight → o.weight ≤ c →
        o.value < b.value ∨ (o.value = b.value ∧ b.weight ≤ o.weight) := by
  obtain ⟨b, hb⟩ := Option.isSome_iff_exists.mp (selectFallbackOrder_isSome hsome)
  obtain ⟨⟨hbmem, hbw, hbc⟩, hbest⟩ := selectFallbackOrder_best hb
  refine ⟨b, ?_, hbw, hbc, ?_⟩
  · have hempty' : (bestSelectOrdersForDelivery1 orders rid c).orders.getD [] =
        ([] : List Order) := hempty
    unfold generateDeliveryPlanCore
    simp [hempty', hb, goList]
  · intro o ho h1 h2
    have := hbest o ho h1 h2
    unfold fbBetter at this
    omega

/-- Witness for C5 at a concrete input (the main solver filters the
negative-value shipment, the fallback selects it). -/
theorem C5_fallback_witness :
    ∃ b, generateDeliveryPlanCore [(⟨1, 1, 1, -5⟩ : Order)] "robot-1" 10 =
        ⟨"robot-1", b.weight, b.value, some [b]⟩ ∧
      0 < b.weight ∧ b.weight ≤ 10 ∧
      ∀ o ∈ [(⟨1, 1, 1, -5⟩ : Order)], 0 < o.weight → o.weight ≤ 10 →
        o.value < b.value ∨ (o.value = b.value ∧ b.weight ≤ o.weight) :=
  C5_fallback [⟨1, 1, 1, -5⟩] "robot-1" 10
    ⟨⟨1, 1, 1, -5⟩, by decide, by decide, by decide⟩ (by decide)

/-! ## Claim theorem: branch-and-bound cancellation -/

/-- C6 (the code as written): whenever `branchAndBoundSolution` reports an
error (the cancellation poll fired), the plan it returns alongside the error
is the zero `DeliveryPlan{}` — the best feasible solution found so far is
discarded, never returned. -/
theorem C6_cancelled_search_returns_empty (cancel : Nat → Bool) (orders : List Order)
    (rid : String) (cap : Int) :
    (branchAndBoundSolution cancel orders rid cap).2 = false ∨
      (branchAndBoundSolution cancel orders rid cap).1 = ⟨"", 0, 0, none⟩ := by
  unfold branchAndBoundSolution
  rcases bnbSolve cancel orders cap orders 0 0 (orders.map fun _ => false) ⟨0, [], 0⟩ with
    _ | st
  · exact Or.inr rfl
  · exact Or.inl rfl

/-! ## Lemmas: the LRU plan cache -/

lemma lruGet_lruAdd_self (cache : List (PlanCacheKey × DeliveryPlan)) (k : PlanCacheKey)
    (p : DeliveryPlan) : ∃ c2, lruGet (lruAdd cache k p) k = some (p, c2) := by
  unfold lruGet lruAdd planCacheSize
  rw [show (1024 : Nat) = 1023 + 1 from rfl, List.take_succ_cons]
  rw [List.find?_cons_of_pos _ (by simp)]
  exact ⟨_, rfl⟩

lemma lruGet_hit_again {cache c2 : List (PlanCacheKey × DeliveryPlan)} {k : PlanCacheKey}
    {p : DeliveryPlan} (h : lruGet cache k = some (p, c2)) :
    ∃ c3, lruGet c2 k = some (p, c3) := by
  unfold lruGet at h
  rcases hf : cache.find? (fun e => decide (e.1 = k)) with _ | e
  · rw [hf] at h
    cases h
  · rw [hf] at h
    have he := List.find?_some hf
    have hek : e.1 = k := of_decide_eq_true he
    cases h
    unfold lruGet
    rw [List.find?_cons_of_pos _ (by simp [hek])]
    exact ⟨_, rfl⟩

lemma lruGet_none_of_keys {cache : List (PlanCacheKey × DeliveryPlan)} {k : PlanCacheKey}
    (h : ∀ e ∈ cache, e.1 ≠ k) : lruGet cache k = none := by
  unfold lruGet
  rw [List.find?_eq_none.mpr fun e he => by simpa using h e he]

lemma lruGet_stale_none {cache : List (PlanCacheKey × DeliveryPlan)} {v c : Int}
    (h : ∀ e ∈ cache, e.1.1 < v) : lruGet cache (v, c) = none := by
  apply lruGet_none_of_keys
  intro e he heq
  have := h e he
  rw [heq] at this
  omega

lemma mem_lruAdd {cache : List (PlanCacheKey × DeliveryPlan)} {k : PlanCacheKey}
    {p : DeliveryPlan} {e : PlanCacheKey × DeliveryPlan} (h : e ∈ lruAdd cache k p) :
    e = (k, p) ∨ e ∈ cache := by
  unfold lruAdd at h
  have h1 := List.mem_of_mem_take h
  rcases List.mem_cons.mp h1 with rfl | h2
  · exact Or.inl rfl
  · exact Or.inr (List.mem_filter.mp h2).1

lemma mem_lruGet_snd {cache c2 : List (PlanCacheKey × DeliveryPlan)} {k : PlanCacheKey}
    {p : DeliveryPlan} (h : lruGet cache k = some (p, c2))
    {e : PlanCacheKey × DeliveryPlan} (he : e ∈ c2) : e ∈ cache := by
  unfold lruGet at h
  rcases hf : cache.find? (fun e => decide (e.1 = k)) with _ | e0
  · rw [hf] at h
    cases h
  · rw [hf] at h
    cases h
    rcases List.mem_cons.mp he with rfl | h2
    · exact List.mem_of_find?_eq_some hf
    · exact (List.mem_filter.mp h2).1

lemma genPlanCached_hit {st : RobotSysState} {rid : String} {c : Int} {v : DeliveryPlan}
    {c2 : List (PlanCacheKey × DeliveryPlan)}
    (h : lruGet st.planCache (st.shippingOrdersVersion, c) = some (v, c2)) :
    generateDeliveryPlanCached st rid c =
      ({ v with robotID := rid }, { st with planCache := c2 }) := by
  unfold generateDeliveryPlanCached
  dsimp only
  rw [h]

lemma genPlanCached_miss_empty {st : RobotSysState} {rid : String} {c : Int}
    (h : lruGet st.planCache (st.shippingOrdersVersion, c) = none)
    (he : goList (bestSelectOrdersForDelivery3 st.shippingOrders rid c).orders = []) :
    generateDeliveryPlanCached st rid c =
      (bestSelectOrdersForDelivery3 st.shippingOrders rid c,
        { st with planCache := (lruAdd st.planCache (st.shippingOrdersVersion, c)
            (bestSelectOrdersForDelivery3 st.shippingOrders rid c)) }) := by
  unfold generateDeliveryPlanCached
  dsimp only
  rw [h]
  dsimp only
  rw [he]
  simp

lemma genPlanCached_miss_nonempty {st : RobotSysState} {rid : String} {c : Int}
    (h : lruGet st.planCache (st.shippingOrdersVersion, c) = none)
    (hne : goList (bestSelectOrdersForDelivery3 st.shippingOrders rid c).orders ≠ []) :
    generateDeliveryPlanCached st rid c =
      (bestSelectOrdersForDelivery3 st.shippingOrders rid c,
        ⟨st.shippingOrdersVersion + 1,
          st.shippingOrders.filter (fun o =>
            !(((goList (bestSelectOrdersForDelivery3 st.shippingOrders rid c).orders).map
              Order.orderID).contains o.orderID)),
          lruAdd st.planCache (st.shippingOrdersVersion, c)
            (bestSelectOrdersForDelivery3 st.shippingOrders rid c)⟩) := by
  unfold generateDeliveryPlanCached
  dsimp only
  rw [h]
  dsimp only
  rw [if_pos (List.length_pos.mpr hne)]

/-! ## Claim theorem: the plan cache -/

/-- C7: starting from a well-formed state, (a) if the first planning call
leaves the pool version unchanged (no pool mutation), a second call with the
same capacity hits the cache — the lookup at its key succeeds — and returns a
plan with the same totals; (b) a status transition after the first call bumps
the pool version, so the next lookup at the current key misses and forces a
recomputation: a cache entry keyed to a stale version is never served. -/
theorem C7_plan_cache (st : RobotSysState) (rid1 rid2 : String) (c : Int)
    (hwf : cacheWF st) :
    ((generateDeliveryPlanCached st rid1 c).2.shippingOrdersVersion =
        st.shippingOrdersVersion →
      (lruGet (generateDeliveryPlanCached st rid1 c).2.planCache
          ((generateDeliveryPlanCached st rid1 c).2.shippingOrdersVersion, c)).isSome ∧
      (generateDeliveryPlanCached (generateDeliveryPlanCached st rid1 c).2 rid2 c).1.totalWeight =
        (generateDeliveryPlanCached st rid1 c).1.totalWeight ∧
      (generateDeliveryPlanCached (generateDeliveryPlanCached st rid1 c).2 rid2 c).1.totalValue =
        (generateDeliveryPlanCached st rid1 c).1.totalValue) ∧
    (∀ newPool,
      lruGet (updateOrderStatusStep (generateDeliveryPlanCached st rid1 c).2 newPool).planCache
        ((updateOrderStatusStep (generateDeliveryPlanCached st rid1 c).2
            newPool).shippingOrdersVersion, c) = none) := by
  rcases hget : lruGet st.planCache (st.shippingOrdersVersion, c) with _ | ⟨v, c2⟩
  · by_cases hne : goList (bestSelectOrdersForDelivery3 st.shippingOrders rid1 c).orders = []
    · -- miss, empty plan: no pool mutation, entry inserted at the current key
      have heq := @genPlanCached_miss_empty _ rid1 _ hget hne
      obtain ⟨c3, hc3⟩ := lruGet_lruAdd_self st.planCache (st.shippingOrdersVersion, c)
        (bestSelectOrdersForDelivery3 st.shippingOrders rid1 c)
      rw [heq]
      constructor
      · intro _
        refine ⟨by simp [hc3], ?_⟩
        have heq2 := @genPlanCached_hit
          ⟨st.shippingOrdersVersion, st.shippingOrders,
            lruAdd st.planCache (st.shippingOrdersVersion, c)
              (bestSelectOrdersForDelivery3 st.shippingOrders rid1 c)⟩
          rid2 _ _ _ hc3
        rw [heq2]
        exact ⟨rfl, rfl⟩
      · intro newPool
        apply lruGet_stale_none
        intro e he
        rcases mem_lruAdd he with rfl | hmem
        · simp [updateOrderStatusStep]
        · have := hwf e hmem
          simp only [updateOrderStatusStep]
          omega
    · -- miss, non-empty plan: the pool version advances during the call
      have heq := @genPlanCached_miss_nonempty _ rid1 _ hget hne
      rw [heq]
      constructor
      · intro hv
        exfalso
        simp only at hv
        omega
      · intro newPool
        apply lruGet_stale_none
        intro e he
        rcases mem_lruAdd he with rfl | hmem
        · simp only [updateOrderStatusStep]
          omega
        · have := hwf e hmem
          simp only [updateOrderStatusStep]
          omega
  · -- hit: the cached plan is returned retargeted, the entry stays present
    have heq := @genPlanCached_hit _ rid1 _ _ _ hget
    obtain ⟨c3, hc3⟩ := lruGet_hit_again hget
    rw [heq]
    constructor
    · intro _
      refine ⟨by simp [hc3], ?_⟩
      have heq2 := @genPlanCached_hit
        ⟨st.shippingOrdersVersion, st.shippingOrders, c2⟩ rid2 _ _ _ hc3
      rw [heq2]
      exact ⟨rfl, rfl⟩
    · intro newPool
      apply lruGet_stale_none
      intro e he
      have := hwf e (mem_lruGet_snd hget he)
      simp only [updateOrderStatusStep]
      omega

/-- Witness for C7 at a concrete state (empty pool, empty cache). -/
theorem C7_plan_cache_witness :
    ((lruGet (generateDeliveryPlanCached ⟨0, [], []⟩ "robot-a" 5).2.planCache
        ((generateDeliveryPlanCached ⟨0, [], []⟩ "robot-a" 5).2.shippingOrdersVersion,
          5)).isSome ∧
      (generateDeliveryPlanCached (generateDeliveryPlanCached ⟨0, [], []⟩ "robot-a" 5).2
          "robot-b" 5).1.totalWeight =
        (generateDeliveryPlanCached ⟨0, [], []⟩ "robot-a" 5).1.totalWeight ∧
      (generateDeliveryPlanCached (generateDeliveryPlanCached ⟨0, [], []⟩ "robot-a" 5).2
          "robot-b" 5).1.totalValue =
        (generateDeliveryPlanCached ⟨0, [], []⟩ "robot-a" 5).1.totalValue) ∧
    lruGet (updateOrderStatusStep (generateDeliveryPlanCached ⟨0, [], []⟩ "robot-a" 5).2
        []).planCache
      ((updateOrderStatusStep (generateDeliveryPlanCached ⟨0, [], []⟩ "robot-a" 5).2
          []).shippingOrdersVersion, 5) = none := by
  have h := C7_plan_cache ⟨0, [], []⟩ "robot-a" "robot-b" 5
    (fun e he => absurd he (List.not_mem_nil e))
  exact ⟨h.1 (by decide), h.2 []⟩

/-! ## Lemmas: the greedy strategies -/

lemma greedy_go (capacity : Int) :
    ∀ (l : List Order) (acc : List Order × Int × Int),
      acc.2.2 = calculateTotalValue acc.1 → acc.2.1 = calculateTotalWeight acc.1 →
      ((acc.1 = [] ∧ acc.2.1 = 0) ∨ acc.2.1 ≤ capacity) →
      (l.foldl (greedyStep capacity) acc).2.2 =
          calculateTotalValue (l.foldl (greedyStep capacity) acc).1 ∧
        (l.foldl (greedyStep capacity) acc).2.1 =
          calculateTotalWeight (l.foldl (greedyStep capacity) acc).1 ∧
        (((l.foldl (greedyStep capacity) acc).1 = [] ∧
            (l.foldl (greedyStep capacity) acc).2.1 = 0) ∨
          (l.foldl (greedyStep capacity) acc).2.1 ≤ capacity) := by
  intro l
  induction l with
  | nil => intro acc h1 h2 h3; exact ⟨h1, h2, h3⟩
  | cons o t ih =>
    intro acc h1 h2 h3
    rw [List.foldl_cons]
    by_cases hc : acc.2.1 + o.weight ≤ capacity
    · have hstep : greedyStep capacity acc o =
          (acc.1 ++ [o], acc.2.1 + o.weight, acc.2.2 + o.value) := by
        unfold greedyStep
        rw [if_pos hc]
      rw [hstep]
      apply ih
      · rw [calculateTotalValue_append, calculateTotalValue_cons, calculateTotalValue_nil, h1]
        ring
      · rw [calculateTotalWeight_append, calculateTotalWeight_cons, calculateTotalWeight_nil, h2]
        ring
      · exact Or.inr hc
    · have hstep : greedyStep capacity acc o = acc := by
        unfold greedyStep
        rw [if_neg hc]
      rw [hstep]
      exact ih acc h1 h2 h3

lemma greedyByValueDensity_spec (orders : List Order) (capacity : Int) :
    (greedyByValueDensity orders capacity).2 =
        calculateTotalValue (greedyByValueDensity orders capacity).1 ∧
      ((greedyByValueDensity orders capacity).1 = [] ∨
        calculateTotalWeight (greedyByValueDensity orders capacity).1 ≤ capacity) := by
  have h := greedy_go capacity orders ([], 0, 0) (by simp [calculateTotalValue])
    (by simp [calculateTotalWeight]) (Or.inl ⟨rfl, rfl⟩)
  obtain ⟨h1, h2, h3⟩ := h
  refine ⟨h1, ?_⟩
  rcases h3 with ⟨hnil, _⟩ | hle
  · exact Or.inl hnil
  · rw [h2] at hle
    exact Or.inr hle

lemma efficientStrategy_spec (orders : List Order) (capacity : Int) :
    (efficientStrategy orders capacity).2 =
        calculateTotalValue (efficientStrategy orders capacity).1 ∧
      ((efficientStrategy orders capacity).1 = [] ∨
        calculateTotalWeight (efficientStrategy orders capacity).1 ≤ capacity) := by
  unfold efficientStrategy
  split
  · exact ⟨by simp [calculateTotalValue], Or.inl rfl⟩
  · exact greedyByValueDensity_spec _ _

/-! ## Lemmas: `lightLocalSearch` -/

lemma findLightSwapInner_sound {selMap : Int → Bool} {sel : Order} {cw bv cap : Int} :
    ∀ (cands : List Order) (c : Order),
      findLightSwapInner selMap sel cw bv cap cands = some c →
      cw - sel.weight + c.weight ≤ cap ∧ bv < bv - sel.value + c.value := by
  intro cands
  induction cands with
  | nil => intro c h; cases h
  | cons x rest ih =>
    intro c h
    rw [findLightSwapInner] at h
    split at h
    · exact ih c h
    · split at h
      · exact ih c h
      · split at h
        · next hwt hval =>
          cases h
          exact ⟨by omega, hval⟩
        · exact ih c h

lemma findLightSwap_sound {allOrders : List Order} {selMap : Int → Bool} {cw bv cap : Int} :
    ∀ (sels : List Order) (i0 i : Nat) (sel c : Order),
      findLightSwap allOrders selMap cw bv cap sels i0 = some (i, sel, c) →
      ∃ k, k < sels.length ∧ i = i0 + k ∧ sels.getD k defaultOrder = sel ∧
        cw - sel.weight + c.weight ≤ cap ∧ bv < bv - sel.value + c.value := by
  intro sels
  induction sels with
  | nil => intro i0 i sel c h; cases h
  | cons s t ih =>
    intro i0 i sel c h
    rw [findLightSwap] at h
    rcases hinner : findLightSwapInner selMap s cw bv cap allOrders with _ | c0
    · rw [hinner] at h
      obtain ⟨k, hk, hik, hsel, hrest⟩ := ih (i0 + 1) i sel c h
      exact ⟨k + 1, by simpa using hk, by omega, by simpa using hsel, hrest⟩
    · rw [hinner] at h
      obtain ⟨hw, hv⟩ := findLightSwapInner_sound allOrders c0 hinner
      cases h
      exact ⟨0, by simp, by omega, rfl, hw, hv⟩

lemma lightLoop_spec (cancel : Nat → Bool) (allOrders : List Order) (capacity : Int) :
    ∀ (fuel iterations : Nat) (best : List Order) (bv cw : Int) (selMap : Int → Bool),
      bv = calculateTotalValue best → cw = calculateTotalWeight best → cw ≤ capacity →
      (lightLoop cancel allOrders capacity fuel iterations best bv cw selMap).2 =
          calculateTotalValue
            (lightLoop cancel allOrders capacity fuel iterations best bv cw selMap).1 ∧
        bv ≤ (lightLoop cancel allOrders capacity fuel iterations best bv cw selMap).2 ∧
        calculateTotalWeight
            (lightLoop cancel allOrders capacity fuel iterations best bv cw selMap).1 ≤
          capacity := by
  intro fuel
  induction fuel with
  | zero =>
    intro iterations best bv cw selMap h1 h2 h3
    exact ⟨h1, le_refl bv, h2 ▸ h3⟩
  | succ fuel ih =>
    intro iterations best bv cw selMap h1 h2 h3
    rw [lightLoop]
    split
    · exact ⟨h1, le_refl bv, h2 ▸ h3⟩
    · split
      · exact ⟨h1, le_refl bv, h2 ▸ h3⟩
      · next i sel c hsw =>
        obtain ⟨k, hk, hik, hsel, hwt, hval⟩ := findLightSwap_sound best 0 i sel c hsw
        have hi : i < best.length := by omega
        have hik' : i = k := by omega
        have hTV : calculateTotalValue (best.set i c) = bv - sel.value + c.value := by
          rw [calculateTotalValue_set best i c hi, ← h1, hik', hsel]
        have hTW : calculateTotalWeight (best.set i c) = cw - sel.weight + c.weight := by
          rw [calculateTotalWeight_set best i c hi, ← h2, hik', hsel]
        have := ih (iterations + 1) (best.set i c) (bv - sel.value + c.value)
          (cw - sel.weight + c.weight)
          (fun id => if id = c.orderID then true else if id = sel.orderID then false
            else selMap id)
          hTV.symm hTW.symm (by omega)
        exact ⟨this.1, by omega, this.2.2⟩

lemma lightLocalSearch_spec (cancel : Nat → Bool) (current allOrders : List Order)
    (capacity : Int) (hw : calculateTotalWeight current ≤ capacity) :
    (lightLocalSearch cancel current allOrders capacity).2 =
        calculateTotalValue (lightLocalSearch cancel current allOrders capacity).1 ∧
      calculateTotalValue current ≤ (lightLocalSearch cancel current allOrders capacity).2 ∧
      calculateTotalWeight (lightLocalSearch cancel current allOrders capacity).1 ≤
        capacity := by
  unfold lightLocalSearch
  split
  · next hlen =>
    rcases List.length_eq_zero.mp hlen with rfl
    exact ⟨by simp [calculateTotalValue], le_refl _, hw⟩
  · exact lightLoop_spec cancel allOrders capacity 100 0 current _ _ _ rfl rfl hw

/-! ## Claim theorems: the heuristic suite versus the density baseline -/

/-- C8 fails as stated: `conservativeGreedySolution` never density-sorts its
input, so on `[(1,w6,v10), (2,w3,v6), (3,w3,v6)]` with capacity 6 every
strategy (and the exchange-only local search) is stuck with the first-listed
heavy item (value 10), while the spec's density-sorted baseline packs the two
light items (value 12). -/
theorem C8_counterexample :
    (conservativeGreedySolution (fun _ => false)
        [⟨1, 1, 6, 10⟩, ⟨2, 2, 3, 6⟩, ⟨3, 3, 3, 6⟩] "robot-1" 6).totalValue <
      (greedyDensityBaseline [⟨1, 1, 6, 10⟩, ⟨2, 2, 3, 6⟩, ⟨3, 3, 3, 6⟩] 6).2 := by
  decide

/-- C8 (amended): the heuristic suite's reported total value is always ≥ the
value of `greedyByValueDensity` applied to the same input sequence in its
given order (the baseline the code actually computes; it coincides with the
spec's sorted baseline exactly when the input arrives density-sorted). -/
theorem C8_amended (cancel : Nat → Bool) (orders : List Order) (rid : String) (c : Int) :
    (greedyByValueDensity orders c).2 ≤
      (conservativeGreedySolution cancel orders rid c).totalValue := by
  have hbase := greedyByValueDensity_spec orders c
  have hhv := greedyByValueDensity_spec
    (orders.insertionSort fun a b => highValueLess a b = true) c
  have heff := efficientStrategy_spec orders c
  unfold conservativeGreedySolution
  dsimp only
  set base := greedyByValueDensity orders c with hbasedef
  set hv := selectHighValueItems orders c with hhvdef
  set eff := efficientStrategy orders c with heffdef
  have hhv' : hv.2 = calculateTotalValue hv.1 ∧
      (hv.1 = [] ∨ calculateTotalWeight hv.1 ≤ c) := by
    rw [hhvdef]
    exact hhv
  set best1 := if base.2 < hv.2 then hv else base with hb1
  set best2 := if best1.2 < eff.2 then eff else best1 with hb2
  have hb1spec : best1.2 = calculateTotalValue best1.1 ∧
      (best1.1 = [] ∨ calculateTotalWeight best1.1 ≤ c) := by
    rw [hb1]
    split
    · exact hhv'
    · exact hbase
  have hb2spec : best2.2 = calculateTotalValue best2.1 ∧
      (best2.1 = [] ∨ calculateTotalWeight best2.1 ≤ c) := by
    rw [hb2]
    split
    · exact heff
    · exact hb1spec
  have hmono1 : base.2 ≤ best1.2 := by
    rw [hb1]
    split
    · next h => exact le_of_lt h
    · exact le_refl _
  have hmono2 : best1.2 ≤ best2.2 := by
    rw [hb2]
    split
    · next h => exact le_of_lt h
    · exact le_refl _
  show base.2 ≤ (lightLocalSearch cancel best2.1 orders c).2
  rcases hb2spec.2 with hnil | hle
  · have : lightLocalSearch cancel best2.1 orders c = (best2.1, 0) := by
      unfold lightLocalSearch
      rw [if_pos (by rw [hnil]; rfl)]
    rw [this]
    have : best2.2 = 0 := by rw [hb2spec.1, hnil]; rfl
    omega
  · have hls := lightLocalSearch_spec cancel best2.1 orders c hle
    have : calculateTotalValue best2.1 ≤ (lightLocalSearch cancel best2.1 orders c).2 :=
      hls.2.1
    rw [← hb2spec.1] at this
    omega

/-! ## Lemmas: `mediumLocalSearch` -/

lemma getD_set_ne (l : List Order) (i j : Nat) (a : Order) (hij : i ≠ j)
    (hj : j < l.length) :
    (l.set i a).getD j defaultOrder = l.getD j defaultOrder := by
  rw [List.getD_eq_getElem _ _ (by rw [List.length_set]; exact hj),
    List.getD_eq_getElem _ _ hj]
  exact List.getElem_set_ne hij _

lemma swapPositions_totalValue (l : List Order) (i j : Nat) (hi : i < l.length)
    (hj : j < l.length) (hij : i ≠ j) :
    calculateTotalValue (swapPositions l i j) = calculateTotalValue l := by
  unfold swapPositions
  rw [calculateTotalValue_set _ j _ (by rw [List.length_set]; exact hj)]
  rw [calculateTotalValue_set _ i _ hi]
  rw [getD_set_ne l i j _ hij hj]
  ring

/-- A position swap never strictly improves the total value, so the 2-opt
inner scan of `mediumLocalSearch` finds nothing. -/
lemma findMedium2optInner_none (best : List Order) (i : Nat) (hi : i < best.length) :
    ∀ (n j : Nat), best.length - j ≤ n → i < j →
      findMedium2optInner best (calculateTotalValue best) i j = none := by
  intro n
  induction n with
  | zero =>
    intro j hn hij
    rw [findMedium2optInner, dif_neg (by omega)]
  | succ n ih =>
    intro j hn hij
    rw [findMedium2optInner]
    by_cases hj : j < best.length
    · rw [dif_pos hj]
      dsimp only
      rw [swapPositions_totalValue best i j hi hj (by omega)]
      rw [if_neg (lt_irrefl _)]
      exact ih (j + 1) (by omega) (by omega)
    · rw [dif_neg hj]

lemma findMedium2opt_none (best : List Order) :
    ∀ (n i : Nat), best.length - i ≤ n →
      findMedium2opt best (calculateTotalValue best) i = none := by
  intro n
  induction n with
  | zero =>
    intro i hn
    rw [findMedium2opt, dif_neg (by omega)]
  | succ n ih =>
    intro i hn
    rw [findMedium2opt]
    by_cases hi : i < best.length
    · rw [dif_pos hi]
      rw [findMedium2optInner_none best i hi (best.length - (i + 1)) (i + 1) (le_refl _)
        (by omega)]
      exact ih (i + 1) (by omega)
    · rw [dif_neg hi]

lemma findMediumExchInner_sound (best : List Order) (selMap : Int → Bool) (bv cap : Int)
    (i : Nat) (hi : i < best.length) :
    ∀ (cands : List Order) (r : Nat × Order × Order × List Order × Int),
      findMediumExchInner best selMap bv cap i (best.getD i defaultOrder) cands = some r →
      r.2.2.2.2 = calculateTotalValue r.2.2.2.1 ∧ bv < r.2.2.2.2 ∧
        calculateTotalWeight r.2.2.2.1 ≤ cap := by
  intro cands
  induction cands with
  | nil => intro r h; cases h
  | cons c rest ih =>
    intro r h
    rw [findMediumExchInner] at h
    split at h
    · exact ih r h
    · split at h
      · next hwc =>
        dsimp only at h
        split at h
        · next hv =>
          cases h
          refine ⟨rfl, hv, ?_⟩
          rw [calculateTotalWeight_set best i c hi]
          omega
        · exact ih r h
      · exact ih r h

lemma findMediumExch_sound (best allOrders : List Order) (selMap : Int → Bool)
    (bv cap : Int) :
    ∀ (n i : Nat) (r : Nat × Order × Order × List Order × Int),
      best.length - i ≤ n → findMediumExch best allOrders selMap bv cap i = some r →
      r.2.2.2.2 = calculateTotalValue r.2.2.2.1 ∧ bv < r.2.2.2.2 ∧
        calculateTotalWeight r.2.2.2.1 ≤ cap := by
  intro n
  induction n with
  | zero =>
    intro i r hn h
    rw [findMediumExch, dif_neg (by omega)] at h
    cases h
  | succ n ih =>
    intro i r hn h
    rw [findMediumExch] at h
    by_cases hi : i < best.length
    · rw [dif_pos hi] at h
      rcases hinner : findMediumExchInner best selMap bv cap i (best.getD i defaultOrder)
          allOrders with _ | r0
      · rw [hinner] at h
        exact ih (i + 1) r (by omega) h
      · rw [hinner] at h
        have hs := findMediumExchInner_sound best selMap bv cap i hi allOrders r0 hinner
        cases h
        exact hs
    · rw [dif_neg hi] at h
      cases h

lemma mediumLoop_spec (cancel : Nat → Bool) (allOrders : List Order) (capacity : Int) :
    ∀ (fuel iterations : Nat) (best : List Order) (bv : Int) (selMap : Int → Bool),
      bv = calculateTotalValue best → calculateTotalWeight best ≤ capacity →
      (mediumLoop cancel allOrders capacity fuel iterations best bv selMap).2 =
          calculateTotalValue
            (mediumLoop cancel allOrders capacity fuel iterations best bv selMap).1 ∧
        bv ≤ (mediumLoop cancel allOrders capacity fuel iterations best bv selMap).2 ∧
        calculateTotalWeight
            (mediumLoop cancel allOrders capacity fuel iterations best bv selMap).1 ≤
          capacity := by
  intro fuel
  induction fuel with
  | zero =>
    intro iterations best bv selMap h1 h2
    exact ⟨h1, le_refl bv, h2⟩
  | succ fuel ih =>
    intro iterations best bv selMap h1 h2
    rw [mediumLoop]
    split
    · exact ⟨h1, le_refl bv, h2⟩
    · have h2opt : findMedium2opt best bv 0 = none := by
        rw [h1]
        exact findMedium2opt_none best best.length 0 (by omega)
      rw [h2opt]
      split
      · next b v hex => simp at hex
      · split
        · next x sel c b v hex =>
          obtain ⟨hv1, hv2, hv3⟩ :=
            findMediumExch_sound best allOrders selMap bv capacity best.length 0 _ (by omega) hex
          dsimp only at hv1 hv2 hv3
          have := ih (iterations + 1) b v
            (fun id => if id = c.orderID then true else if id = sel.orderID then false
              else selMap id) hv1 hv3
          exact ⟨this.1, by omega, this.2.2⟩
        · exact ⟨h1, le_refl bv, h2⟩

lemma mediumLocalSearch_spec (cancel : Nat → Bool) (current allOrders : List Order)
    (capacity : Int) (hw : calculateTotalWeight current ≤ capacity) :
    (mediumLocalSearch cancel current allOrders capacity).2 =
        calculateTotalValue (mediumLocalSearch cancel current allOrders capacity).1 ∧
      calculateTotalValue current ≤ (mediumLocalSearch cancel current allOrders capacity).2 ∧
      calculateTotalWeight (mediumLocalSearch cancel current allOrders capacity).1 ≤
        capacity := by
  unfold mediumLocalSearch
  split
  · next hlen =>
    rcases List.length_eq_zero.mp hlen with rfl
    exact ⟨by simp [calculateTotalValue], le_refl _, hw⟩
  · exact mediumLoop_spec cancel allOrders capacity 500 0 current _ _ rfl hw

/-! ## Claim theorem: local search safety -/

/-- C10: from any feasible initial selection, and for every cancellation
pattern, `lightLocalSearch` and `mediumLocalSearch` return selections whose
total value is at least the initial one's and whose total weight still fits
the capacity. -/
theorem C10_local_search_safe (cancel : Nat → Bool) (current allOrders : List Order)
    (capacity : Int) (hw : calculateTotalWeight current ≤ capacity) :
    (calculateTotalValue current ≤
        calculateTotalValue (lightLocalSearch cancel current allOrders capacity).1 ∧
      calculateTotalWeight (lightLocalSearch cancel current allOrders capacity).1 ≤
        capacity) ∧
    (calculateTotalValue current ≤
        calculateTotalValue (mediumLocalSearch cancel current allOrders capacity).1 ∧
      calculateTotalWeight (mediumLocalSearch cancel current allOrders capacity).1 ≤
        capacity) := by
  obtain ⟨l1, l2, l3⟩ := lightLocalSearch_spec cancel current allOrders capacity hw
  obtain ⟨m1, m2, m3⟩ := mediumLocalSearch_spec cancel current allOrders capacity hw
  exact ⟨⟨by omega, l3⟩, ⟨by omega, m3⟩⟩

/-- Witness for C10 at a concrete feasible selection. -/
theorem C10_local_search_safe_witness :
    (calculateTotalValue [(⟨1, 1, 1, 1⟩ : Order)] ≤
        calculateTotalValue (lightLocalSearch (fun _ => false) [⟨1, 1, 1, 1⟩]
          [⟨1, 1, 1, 1⟩, ⟨2, 1, 1, 3⟩] 1).1 ∧
      calculateTotalWeight (lightLocalSearch (fun _ => false) [⟨1, 1, 1, 1⟩]
          [⟨1, 1, 1, 1⟩, ⟨2, 1, 1, 3⟩] 1).1 ≤ 1) ∧
    (calculateTotalValue [(⟨1, 1, 1, 1⟩ : Order)] ≤
        calculateTotalValue (mediumLocalSearch (fun _ => false) [⟨1, 1, 1, 1⟩]
          [⟨1, 1, 1, 1⟩, ⟨2, 1, 1, 3⟩] 1).1 ∧
      calculateTotalWeight (mediumLocalSearch (fun _ => false) [⟨1, 1, 1, 1⟩]
          [⟨1, 1, 1, 1⟩, ⟨2, 1, 1, 3⟩] 1).1 ≤ 1) :=
  C10_local_search_safe (fun _ => false) [⟨1, 1, 1, 1⟩] [⟨1, 1, 1, 1⟩, ⟨2, 1, 1, 3⟩] 1
    (by decide)

end DeliveryOpt
